import Mathlib

/-!
# sudoku-go: a shallow embedding of `sudoku.go` and its solver contract

The Go program keeps the puzzle in a `[9][9]int` that `Solve` and `Backtrack`
mutate through a pointer.  Here the board is a function on `Fin 9 × Fin 9`,
every mutation is an explicit new board, and the mutual recursion of `Solve`
and `Backtrack` is indexed by a fuel counter (the recursion depth allowed).

`sort.Slice` belongs to the Go standard library, not to the repository; it is a
parameter `srt` of the embedding, constrained by `IsSliceSort` (its documented
contract: the result is a reordering of the input with no inversion under
`less`; the sort is not stable, so nothing more is assumed).

The parser `Board` is embedded on the list of lines that `ReadLine` hands it.
`strconv.Atoi` is a parameter `atoi` of that embedding; `decimalAtoi` follows
its documentation and serves the concrete runs. A call of `log.Fatal` and a
runtime panic on an index are kept apart as two ways a run can stop.
-/

namespace Sudoku

/-! ## The program -/

/-- The board `[9][9]int`: row index first, `0` (any value below `1`) is empty. -/
abbrev Grid := Fin 9 → Fin 9 → Int

/-- The index range `0 .. 8` of the `for i := 0; i < 9; i++` loops. -/
def idx9 : List (Fin 9) := [0, 1, 2, 3, 4, 5, 6, 7, 8]

/-- The three offsets of the box loops `for i := r3; i < r3+3; i++`. -/
def idx3 : List (Fin 3) := [0, 1, 2]

/-- The candidate digits of `for i := 1; i <= 9; i++`. -/
def digits : List Int := [1, 2, 3, 4, 5, 6, 7, 8, 9]

/-- The cells in the order of the nested loops `for i { for j { .. } }`. -/
def rowMajor : List (Fin 9 × Fin 9) :=
  idx9.flatMap (fun i => idx9.map (fun j => (i, j)))

/-- The assignment `board[r][c] = v`. -/
def setCell (board : Grid) (r c : Fin 9) (v : Int) : Grid :=
  fun i j => if i = r ∧ j = c then v else board i j

/-- The two error values the solver creates with `errors.New`. -/
inductive SolveError where
  /-- The message "No solutions for r, c" of `Solution`. -/
  | noSolutions (r c : Fin 9)
  /-- The message "Not solved with backtracking" of `Backtrack`. -/
  | notSolved
  deriving DecidableEq, Repr

/-- The type `Cell` of the source: a position and its candidate list. -/
structure Cell where
  row : Fin 9
  col : Fin 9
  options : List Int
  deriving DecidableEq, Repr

/-- How a call of `Solve`, `Backtrack` or the driver ends: it returns
`(solved, err)` leaving `board`, or the runtime panics on `options[0]`, or the
fuel of the embedding is used up. -/
inductive Run where
  | done (board : Grid) (solved : Bool) (err : Option SolveError)
  | indexPanic
  | outOfFuel

/-- The function `notContains`: scan the array, stop at the first match. -/
def notContains : List Int → Int → Bool
  | [], _ => true
  | x :: rest, n => if x = n then false else notContains rest n

/-- The index `r3 + k` with `r3 := 3 * int(r/3)`. -/
def boxIndex (r : Fin 9) (k : Fin 3) : Fin 9 :=
  ⟨3 * (r.val / 3) + k.val, by omega⟩

/-- The function `Solutions`: the arrays `row`, `col`, `box` are filled from
the board, then the digits `1 .. 9` absent from all three are appended in
ascending order. -/
def Solutions (board : Grid) (r c : Fin 9) : List Int :=
  let row := idx9.map (fun i => board r i)
  let col := idx9.map (fun i => board i c)
  let box := idx3.flatMap (fun i => idx3.map (fun j => board (boxIndex r i) (boxIndex c j)))
  digits.filter (fun i => notContains row i && notContains col i && notContains box i)

/-- The function `Solution`: error on no candidate, the digit on exactly one,
`(0, nil)` otherwise. -/
def Solution (board : Grid) (r c : Fin 9) : Int × Option SolveError :=
  match Solutions board r c with
  | [] => (0, some (SolveError.noSolutions r c))
  | [d] => (d, none)
  | _ :: _ :: _ => (0, none)

/-- The function `Options`: the empty cells in scan order with their
candidates, passed through `sort.Slice` when `sorted` is set. -/
def Options (srt : List Cell → List Cell) (board : Grid) (sorted : Bool) : List Cell :=
  let cells := (rowMajor.filter (fun p => decide (board p.1 p.2 < 1))).map
    (fun p => Cell.mk p.1 p.2 (Solutions board p.1 p.2))
  if sorted then srt cells else cells

/-- The contract of `sort.Slice` with `less i j := len(options i) < len(options j)`:
a reordering of the slice in which no later element is `less` than an earlier one. -/
def IsSliceSort (srt : List Cell → List Cell) : Prop :=
  ∀ l, (srt l).Perm l ∧
    (srt l).Pairwise (fun a b => ¬ b.options.length < a.options.length)

/-- A concrete `sort.Slice`: insertion sort by number of candidates. -/
def insertionSlice (l : List Cell) : List Cell :=
  l.insertionSort (fun a b => a.options.length ≤ b.options.length)

/-- The restore loop of `Backtrack`: every cell that differs from the backup
is overwritten with the backup value. -/
def revert (board backup : Grid) : Grid :=
  fun i j => if board i j ≠ backup i j then backup i j else board i j

/-- The loop `for !solved { solved, err = Solve(board); .. }` inside
`Backtrack`, entered with `solved = false`: on an error the board is restored
from `backup` and the loop is left. `solve` is the recursive call, the first
argument bounds the number of iterations. -/
def solveLoop (solve : Grid → Run) (backup : Grid) : Nat → Grid → Run
  | 0, _ => Run.outOfFuel
  | k + 1, board =>
    match solve board with
    | Run.done b solved (some e) => Run.done (revert b backup) solved (some e)
    | Run.done b true none => Run.done b true none
    | Run.done b false none => solveLoop solve backup k b
    | Run.indexPanic => Run.indexPanic
    | Run.outOfFuel => Run.outOfFuel

/-- The loop `for n, s := range o.options` of `Backtrack`: snapshot, commit the
digit, run the inner loop, return on success, otherwise go on with the
(restored) board; after the last digit the exhaustion error. -/
def tryOptions (solve : Grid → Run) (fuel : Nat) (r c : Fin 9) : Grid → List Int → Run
  | board, [] => Run.done board false (some SolveError.notSolved)
  | board, s :: rest =>
    let backup := board
    match solveLoop solve backup fuel (setCell board r c s) with
    | Run.done b true _ => Run.done b true none
    | Run.done b false _ => tryOptions solve fuel r c b rest
    | Run.indexPanic => Run.indexPanic
    | Run.outOfFuel => Run.outOfFuel

/-- The function `Backtrack`: `options[0]` panics on an empty slice. -/
def Backtrack (srt : List Cell → List Cell) (solve : Grid → Run) (fuel : Nat)
    (board : Grid) : Run :=
  match Options srt board true with
  | [] => Run.indexPanic
  | o :: _ => tryOptions solve fuel o.row o.col board o.options

/-- The scan of `Solve` from the cells still to visit and the current value of
`solved`; `backtrack` is what the call `Backtrack(board)` does. -/
def solveFrom (backtrack : Grid → Run) (board : Grid) : List (Fin 9 × Fin 9) → Bool → Run
  | [], solved => if !solved then backtrack board else Run.done board solved none
  | (i, j) :: rest, solved =>
    if board i j < 1 then
      match Solution board i j with
      | (_, some e) => Run.done board false (some e)
      | (answer, none) =>
        if answer > 0 then Run.done (setCell board i j answer) false none
        else solveFrom backtrack board rest false
    else solveFrom backtrack board rest solved

/-- The function `Solve`: `fuel` bounds the depth of the recursion through
`Backtrack` (and the iterations of its inner loop). -/
def Solve (srt : List Cell → List Cell) : Nat → Grid → Run
  | 0, _ => Run.outOfFuel
  | fuel + 1, board =>
    solveFrom (Backtrack srt (Solve srt fuel) fuel) board rowMajor true

/-- The loop `for !solved { solved, err = Solve(&board); .. }` of `main`;
`log.Fatal(err)` ends the run with the error. -/
def mainLoop (solve : Grid → Run) : Nat → Grid → Bool → Run
  | _, board, true => Run.done board true none
  | 0, _, false => Run.outOfFuel
  | k + 1, board, false =>
    match solve board with
    | Run.done b solved (some e) => Run.done b solved (some e)
    | Run.done b solved none => mainLoop solve k b solved
    | Run.indexPanic => Run.indexPanic
    | Run.outOfFuel => Run.outOfFuel

/-- The solving part of `main` (the first call of `Solve`, then the loop). -/
def main (srt : List Cell → List Cell) (fuel : Nat) (board : Grid) : Run :=
  match Solve srt fuel board with
  | Run.done b solved (some e) => Run.done b solved (some e)
  | Run.done b solved none => mainLoop (Solve srt fuel) fuel b solved
  | Run.indexPanic => Run.indexPanic
  | Run.outOfFuel => Run.outOfFuel

/-! ## The vocabulary of the specification -/

/-- Cell `(i, j)` lies in the 3x3 box whose top-left corner is
`(3 * (r / 3), 3 * (c / 3))`, the box of cell `(r, c)`. -/
def inBox (r c i j : Fin 9) : Prop :=
  3 * (r.val / 3) ≤ i.val ∧ i.val < 3 * (r.val / 3) + 3 ∧
  3 * (c.val / 3) ≤ j.val ∧ j.val < 3 * (c.val / 3) + 3

instance (r c i j : Fin 9) : Decidable (inBox r c i j) := by
  unfold inBox; infer_instance

/-- Digit `d` is legal at `(r, c)`: it is one of `1 .. 9` and occurs neither in
row `r`, nor in column `c`, nor in the box of `(r, c)`. -/
def Legal (board : Grid) (r c : Fin 9) (d : Int) : Prop :=
  1 ≤ d ∧ d ≤ 9 ∧ (∀ j, board r j ≠ d) ∧ (∀ i, board i c ≠ d) ∧
    (∀ i j, inBox r c i j → board i j ≠ d)

/-- No cell is empty (the test of the code: a cell is empty when below `1`). -/
def Full (board : Grid) : Prop := ∀ i j, 1 ≤ board i j

instance (board : Grid) : Decidable (Full board) := by
  unfold Full; infer_instance

/-- No digit `1 .. 9` occurs twice in a row, a column or a box. -/
def NoRepeat (board : Grid) : Prop :=
  ∀ d : Int, 1 ≤ d → d ≤ 9 →
    (∀ i j j2, board i j = d → board i j2 = d → j = j2) ∧
    (∀ i i2 j, board i j = d → board i2 j = d → i = i2) ∧
    (∀ r c i j i2 j2, inBox r c i j → inBox r c i2 j2 →
      board i j = d → board i2 j2 = d → i = i2 ∧ j = j2)

/-- A solved grid: no empty cell, every entry a digit, and every row, column
and box holds each digit `1 .. 9` exactly once. -/
def Valid (board : Grid) : Prop :=
  Full board ∧ (∀ i j, board i j ≤ 9) ∧
  ∀ d : Int, 1 ≤ d → d ≤ 9 →
    (∀ i, ∃! j, board i j = d) ∧
    (∀ j, ∃! i, board i j = d) ∧
    (∀ r c, ∃! p : Fin 9 × Fin 9, inBox r c p.1 p.2 ∧ board p.1 p.2 = d)

/-- The number of empty cells. -/
def emptyCount (board : Grid) : Nat :=
  (Finset.univ.filter (fun p : Fin 9 × Fin 9 => board p.1 p.2 < 1)).card

/-- Position `p` comes strictly before `q` in row-major order. -/
def Before (p q : Fin 9 × Fin 9) : Prop :=
  p.1 < q.1 ∨ (p.1 = q.1 ∧ p.2 < q.2)

instance (p q : Fin 9 × Fin 9) : Decidable (Before p q) := by
  unfold Before; infer_instance

/-- The first cell of the list that is empty and has fewer than two candidates. -/
def firstForced (board : Grid) : List (Fin 9 × Fin 9) → Option (Fin 9 × Fin 9)
  | [] => none
  | p :: rest =>
    if board p.1 p.2 < 1 ∧ (Solutions board p.1 p.2).length < 2 then some p
    else firstForced board rest

/-- What the scan of `Solve` returns, read off the first forced cell. -/
def scanResult (backtrack : Grid → Run) (board : Grid) (l : List (Fin 9 × Fin 9))
    (solved : Bool) : Run :=
  match firstForced board l with
  | some p =>
    match Solutions board p.1 p.2 with
    | [] => Run.done board false (some (SolveError.noSolutions p.1 p.2))
    | d :: _ => Run.done (setCell board p.1 p.2 d) false none
  | none =>
    if solved = true ∧ ∀ p ∈ l, 1 ≤ board p.1 p.2 then Run.done board true none
    else backtrack board

/-- An empty cell with fewer than two candidates: the scan of `Solve` stops there. -/
def Forced (board : Grid) (p : Fin 9 × Fin 9) : Prop :=
  board p.1 p.2 < 1 ∧ (Solutions board p.1 p.2).length < 2

/-- The board `b2` arises from `b` by filling empty cells, one at a time, each
with a digit that was a candidate of its cell when it was placed. -/
inductive Reach : Grid → Grid → Prop where
  | refl (b : Grid) : Reach b b
  | step {b b2 : Grid} (i j : Fin 9) (d : Int) (he : b i j < 1)
      (hd : d ∈ Solutions b i j) (rest : Reach (setCell b i j d) b2) : Reach b b2

/-- The postcondition of `Solve` on `b`, returning `(s, e)` with board `b2`:
an error leaves the board as it was and `solved` false; `(true, nil)` ends on a
full board reached by legal placements; `(false, nil)` is one placement of the
only candidate of an empty cell. -/
def Post (b b2 : Grid) (s : Bool) (e : Option SolveError) : Prop :=
  (∀ x, e = some x → s = false ∧ b2 = b) ∧
  (e = none → s = true → Full b2 ∧ Reach b b2) ∧
  (e = none → s = false →
    ∃ i j d, b i j < 1 ∧ Solutions b i j = [d] ∧ b2 = setCell b i j d)

/-- The specification of a solver used as the recursive call: it never panics,
it obeys `Post`, and it runs out of fuel only on boards with `n` or more
empty cells. -/
def SolveSpec (solve : Grid → Run) (n : Nat) : Prop :=
  ∀ b, (solve b = Run.outOfFuel → n ≤ emptyCount b) ∧ solve b ≠ Run.indexPanic ∧
    ∀ b2 s e, solve b = Run.done b2 s e → Post b b2 s e

/-- The postcondition of the inner loop of `Backtrack` started on `c`. -/
def LoopPost (backup c b2 : Grid) (s : Bool) (e : Option SolveError) : Prop :=
  (∃ x, e = some x ∧ s = false ∧ b2 = backup) ∨
  (e = none ∧ s = true ∧ Full b2 ∧ Reach c b2)

/-- The postcondition of `Backtrack` (and of its loop over the candidates). -/
def TryPost (b b2 : Grid) (s : Bool) (e : Option SolveError) : Prop :=
  (s = false ∧ e = some SolveError.notSolved ∧ b2 = b) ∨
  (s = true ∧ e = none ∧ Full b2 ∧ Reach b b2)

/-- Every entry of the board is one of `0 .. 9`. -/
def InRange (board : Grid) : Prop := ∀ i j, 0 ≤ board i j ∧ board i j ≤ 9

instance (board : Grid) : Decidable (InRange board) := by
  unfold InRange; infer_instance

/-- The grid `g` is a valid completion of the puzzle `b`: a solved grid that
agrees with `b` on all its non-zero cells. -/
def Completion (b g : Grid) : Prop :=
  Valid g ∧ ∀ i j, b i j ≠ 0 → g i j = b i j

/-- The solved grid `g` agrees with `b` on every cell the code treats as filled. -/
def Extends (b g : Grid) : Prop :=
  Valid g ∧ ∀ i j, 1 ≤ b i j → g i j = b i j

/-- The completeness half of the specification of a solver: on a board that a
solved grid `g` extends it reports no error, and a single placement stays
below `g`. -/
def CompSpec (solve : Grid → Run) : Prop :=
  ∀ b g, Extends b g → solve b = Run.outOfFuel ∨
    ∃ b2 s, solve b = Run.done b2 s none ∧ (s = false → Extends b2 g)

/-! ## Concrete grids -/

/-- A solved grid: row `i` is `1 .. 9` shifted by `3 * (i % 3) + i / 3`. -/
def pattern : Grid :=
  fun i j => (((3 * (i.val % 3) + i.val / 3 + j.val) % 9 + 1 : Nat) : Int)

/-- The solved grid `pattern` with its top-left cell emptied. -/
def holed : Grid := setCell pattern 0 0 0

/-- A full grid that is no Sudoku solution: every cell holds `1`. -/
def allOnes : Grid := fun _ _ => 1

/-- The solved grid `pattern` with the entry `10` in its top-left cell. -/
def withTen : Grid := setCell pattern 0 0 10

/-- The grid `holed` with a `1` written over the `2` next to the empty cell: the
row now lacks only `2`, which the column holds, so the empty cell has no
candidate left. -/
def dead : Grid := setCell holed 0 1 1

/-- The grid `holed` with the cell next to the empty one emptied as well: the two
empty cells have the single candidates `1` and `2`. -/
def pair : Grid := setCell holed 0 1 0

/-- The grid `holed` with its last cell emptied as well and an `8` written to
the left of that cell: the first empty cell has the single candidate `1`, the
last one has no candidate. -/
def trap : Grid := setCell (setCell holed 8 8 0) 8 7 8

/-- The solved grid `pattern` with every `1` and every `4` emptied: each empty
cell has the two candidates `1` and `4`. -/
def twoDigits : Grid :=
  fun i j => if pattern i j = 1 ∨ pattern i j = 4 then 0 else pattern i j

/-- The precondition of `Backtrack`: there is an empty cell and every empty cell
has two or more candidates. -/
def Stalled (board : Grid) : Prop :=
  (∃ r c, board r c < 1) ∧ ∀ r c, board r c < 1 → 2 ≤ (Solutions board r c).length

instance (board : Grid) : Decidable (Stalled board) := by
  unfold Stalled; infer_instance

/-- The function `Backtrack` with its precondition asserted at entry: a call on
a board that is not `Stalled` is reported as a fault. -/
def BacktrackChecked (srt : List Cell → List Cell) (solve : Grid → Run) (fuel : Nat)
    (board : Grid) : Run :=
  if Stalled board then Backtrack srt solve fuel board else Run.indexPanic

/-- The function `Solve` in which every call of `Backtrack`, at any depth of the
recursion, goes through `BacktrackChecked`. -/
def SolveChecked (srt : List Cell → List Cell) : Nat → Grid → Run
  | 0, _ => Run.outOfFuel
  | fuel + 1, board =>
    solveFrom (BacktrackChecked srt (SolveChecked srt fuel) fuel) board rowMajor true

/-! ## The parser `Board` -/

/-- The three `log.Fatal` messages of `Board`. -/
inductive BoardError where
  /-- The message "Incorrect row i length n != 9". -/
  | rowLength (i : Nat) (len : Nat)
  /-- The error of `strconv.Atoi` on a field. -/
  | notInteger (field : List Char)
  /-- The message "Incorrect number of rows i, expected 9". -/
  | rowCount (i : Nat)
  deriving DecidableEq, Repr

/-- How a call of `Board` ends: it returns the board, or `log.Fatal` stops the
program, or the runtime panics on `board[i][j]` with `i` out of range. -/
inductive BoardRun where
  | grid (board : Grid)
  | fatal (e : BoardError)
  | indexPanic

/-- The library call `strings.Split(line, ",")`: the pieces between the commas,
one more than there are commas. -/
def splitComma : List Char → List (List Char)
  | [] => [[]]
  | c :: cs =>
    if c = ',' then [] :: splitComma cs
    else
      match splitComma cs with
      | [] => [[c]]
      | f :: fs => (c :: f) :: fs

/-- The test `(len(line) > 0) && (line[0] != '#')` of `Board`. -/
def isDataLine (line : List Char) : Bool :=
  match line with
  | [] => false
  | c :: _ => c != '#'

/-- The loop `for j, c := range a` of `Board` on row `i`, from column `j`:
`strconv.Atoi` (the parameter `atoi`) on the field, then `board[i][j] = v`. -/
def fillRow (atoi : List Char → Option Int) (i : Nat) : Grid → Nat → List (List Char) → BoardRun
  | board, _, [] => BoardRun.grid board
  | board, j, c :: rest =>
    match atoi c with
    | none => BoardRun.fatal (BoardError.notInteger c)
    | some v =>
      if h : i < 9 ∧ j < 9 then
        fillRow atoi i (setCell board ⟨i, h.1⟩ ⟨j, h.2⟩ v) (j + 1) rest
      else BoardRun.indexPanic

/-- The read loop of `Board` over the lines that `ReadLine` returns, with the
board and the row counter `i`, and the check `i != 9` after the loop. -/
def boardLines (atoi : List Char → Option Int) : Grid → Nat → List (List Char) → BoardRun
  | board, i, [] =>
    if i ≠ 9 then BoardRun.fatal (BoardError.rowCount i) else BoardRun.grid board
  | board, i, line :: rest =>
    if isDataLine line then
      let a := splitComma line
      if a.length ≠ 9 then BoardRun.fatal (BoardError.rowLength i a.length)
      else
        match fillRow atoi i board 0 a with
        | BoardRun.grid b => boardLines atoi b (i + 1) rest
        | BoardRun.fatal e => BoardRun.fatal e
        | BoardRun.indexPanic => BoardRun.indexPanic
    else boardLines atoi board i rest

/-- The function `Board` on the lines of the puzzle file: `var board [9][9]int`
starts as all zeros. -/
def Board (atoi : List Char → Option Int) (lines : List (List Char)) : BoardRun :=
  boardLines atoi (fun _ _ => 0) 0 lines

/-- The value of a decimal digit character. -/
def digitOf (c : Char) : Option Nat :=
  if 48 ≤ c.toNat ∧ c.toNat ≤ 57 then some (c.toNat - 48) else none

/-- The value of a string of decimal digits, from the accumulator `acc`. -/
def parseDigits : Nat → List Char → Option Nat
  | acc, [] => some acc
  | acc, c :: cs =>
    match digitOf c with
    | none => none
    | some d => parseDigits (10 * acc + d) cs

/-- The library function `strconv.Atoi` for a 64-bit `int`, as documented: an
optional sign, then one or more decimal digits, and a range error outside
`-2^63 .. 2^63 - 1`. -/
def decimalAtoi (s : List Char) : Option Int :=
  match s with
  | [] => none
  | c :: rest =>
    if c = '-' then
      if rest = [] then none
      else match parseDigits 0 rest with
        | some n => if n ≤ 2 ^ 63 then some (-(n : Int)) else none
        | none => none
    else if c = '+' then
      if rest = [] then none
      else match parseDigits 0 rest with
        | some n => if n < 2 ^ 63 then some (n : Int) else none
        | none => none
    else match parseDigits 0 (c :: rest) with
      | some n => if n < 2 ^ 63 then some (n : Int) else none
      | none => none

/-- A row of nine zeros. -/
def zeroLine : List Char := "0,0,0,0,0,0,0,0,0".toList

/-- Ten well-formed rows: one more than the board has. -/
def tenRows : List (List Char) := List.replicate 10 zeroLine

/-- Nine well-formed rows, the first with the fields `10` and `-1`, after a
comment line and an empty line. -/
def wideRows : List (List Char) :=
  "# puzzle".toList :: [] :: "10,-1,0,0,0,0,0,0,0".toList :: List.replicate 8 zeroLine

/-- The lines of the file that `Board` reads as rows: not empty and not starting
with `#`. -/
def dataLines (lines : List (List Char)) : List (List Char) :=
  lines.filter isDataLine

/-- The input is well formed: exactly nine data lines, each of which splits on
`,` into exactly nine fields that all parse as integers. -/
def WellFormed (atoi : List Char → Option Int) (lines : List (List Char)) : Prop :=
  (dataLines lines).length = 9 ∧
  ∀ l ∈ dataLines lines, (splitComma l).length = 9 ∧ ∀ f ∈ splitComma l, atoi f ≠ none

/-! ## Theorems -/

theorem mem_idx9 (i : Fin 9) : i ∈ idx9 := by
  revert i; decide

theorem mem_idx3 (i : Fin 3) : i ∈ idx3 := by
  revert i; decide

theorem mem_digits (d : Int) : d ∈ digits ↔ 1 ≤ d ∧ d ≤ 9 := by
  simp only [digits, List.mem_cons, List.mem_singleton, List.not_mem_nil, or_false]
  omega

theorem notContains_iff (l : List Int) (n : Int) : notContains l n = true ↔ n ∉ l := by
  induction l with
  | nil => simp [notContains]
  | cons x rest ih =>
    by_cases h : x = n
    · simp [notContains, h]
    · have h2 : ¬ n = x := fun e => h e.symm
      simp [notContains, h, h2, ih]

theorem inBox_iff_boxIndex (r c i j : Fin 9) :
    inBox r c i j ↔ ∃ k l : Fin 3, boxIndex r k = i ∧ boxIndex c l = j := by
  constructor
  · rintro ⟨h1, h2, h3, h4⟩
    refine ⟨⟨i.val - 3 * (r.val / 3), by omega⟩, ⟨j.val - 3 * (c.val / 3), by omega⟩, ?_, ?_⟩
    · apply Fin.ext; simp only [boxIndex]; omega
    · apply Fin.ext; simp only [boxIndex]; omega
  · rintro ⟨k, l, rfl, rfl⟩
    have hk := k.isLt
    have hl := l.isLt
    simp only [inBox, boxIndex]
    omega

theorem mem_Solutions (board : Grid) (r c : Fin 9) (d : Int) :
    d ∈ Solutions board r c ↔ Legal board r c d := by
  unfold Solutions Legal
  simp only [List.mem_filter, mem_digits, Bool.and_eq_true, notContains_iff, List.mem_map,
    List.mem_flatMap, mem_idx9, mem_idx3, true_and, not_exists]
  constructor
  · rintro ⟨⟨h1, h2⟩, ⟨hr, hc⟩, hb⟩
    refine ⟨h1, h2, hr, hc, ?_⟩
    intro i j hij
    obtain ⟨k, l, rfl, rfl⟩ := (inBox_iff_boxIndex r c i j).1 hij
    exact fun e => hb k l e
  · rintro ⟨h1, h2, hr, hc, hb⟩
    refine ⟨⟨h1, h2⟩, ⟨hr, hc⟩, ?_⟩
    intro k l
    exact hb _ _ ((inBox_iff_boxIndex r c _ _).2 ⟨k, l, rfl, rfl⟩)

theorem Solutions_ascending (board : Grid) (r c : Fin 9) :
    (Solutions board r c).Pairwise (fun a b => a < b) := by
  unfold Solutions
  apply List.Pairwise.filter
  decide

theorem solveFrom_eq (backtrack : Grid → Run) (board : Grid) (l : List (Fin 9 × Fin 9))
    (solved : Bool) : solveFrom backtrack board l solved = scanResult backtrack board l solved := by
  induction l generalizing solved with
  | nil =>
    cases solved <;> simp [solveFrom, scanResult, firstForced]
  | cons p rest ih =>
    obtain ⟨i, j⟩ := p
    by_cases hE : board i j < 1
    · rcases h : Solutions board i j with _ | ⟨d, _ | ⟨d2, t⟩⟩
      · simp [solveFrom, scanResult, firstForced, hE, h, Solution]
      · have hd : d ∈ Solutions board i j := by simp [h]
        have hpos : 0 < d := by
          have := ((mem_Solutions board i j d).1 hd).1
          omega
        simp [solveFrom, scanResult, firstForced, hE, h, Solution, hpos]
      · have hne : ¬ (1 ≤ board i j) := by omega
        have hlen : ¬ (t.length + 1 + 1 < 2) := by omega
        simp [solveFrom, firstForced, hE, h, Solution, ih, scanResult, hne, hlen]
    · have hge : 1 ≤ board i j := by omega
      simp [solveFrom, firstForced, hE, ih, scanResult, hge]

theorem firstForced_none (board : Grid) (l : List (Fin 9 × Fin 9)) :
    firstForced board l = none ↔ ∀ q ∈ l, ¬ Forced board q := by
  induction l with
  | nil => simp [firstForced]
  | cons p rest ih =>
    by_cases h : board p.1 p.2 < 1 ∧ (Solutions board p.1 p.2).length < 2
    · simp only [firstForced, if_pos h, List.mem_cons, forall_eq_or_imp, Forced]
      constructor
      · intro h2; cases h2
      · intro h2; exact absurd h h2.1
    · simp only [firstForced, if_neg h, List.mem_cons, forall_eq_or_imp, ih]
      constructor
      · intro h2; exact ⟨h, h2⟩
      · intro h2; exact h2.2

theorem firstForced_split (board : Grid) (l1 l2 : List (Fin 9 × Fin 9)) (p : Fin 9 × Fin 9)
    (hp : Forced board p) (h1 : ∀ q ∈ l1, ¬ Forced board q) :
    firstForced board (l1 ++ p :: l2) = some p := by
  induction l1 with
  | nil =>
    unfold Forced at hp
    simp only [List.nil_append, firstForced, if_pos hp]
  | cons q rest ih =>
    have hq : ¬ Forced board q := h1 q (List.mem_cons_self _ _)
    have hr : ∀ x ∈ rest, ¬ Forced board x := fun x hx => h1 x (List.mem_cons_of_mem _ hx)
    unfold Forced at hq
    simp only [List.cons_append, firstForced, if_neg hq]
    exact ih hr

theorem firstForced_some (board : Grid) (l : List (Fin 9 × Fin 9)) (p : Fin 9 × Fin 9)
    (h : firstForced board l = some p) :
    ∃ l1 l2, l = l1 ++ p :: l2 ∧ Forced board p ∧ ∀ q ∈ l1, ¬ Forced board q := by
  induction l with
  | nil => simp [firstForced] at h
  | cons x rest ih =>
    by_cases hx : board x.1 x.2 < 1 ∧ (Solutions board x.1 x.2).length < 2
    · simp only [firstForced, if_pos hx, Option.some.injEq] at h
      subst h
      exact ⟨[], rest, rfl, hx, by simp⟩
    · simp only [firstForced, if_neg hx] at h
      obtain ⟨l1, l2, e, hp, h1⟩ := ih h
      refine ⟨x :: l1, l2, by simp [e], hp, ?_⟩
      intro q hq
      rcases List.mem_cons.1 hq with rfl | hq
      · exact hx
      · exact h1 q hq

theorem mem_rowMajor (p : Fin 9 × Fin 9) : p ∈ rowMajor := by
  obtain ⟨i, j⟩ := p
  simp only [rowMajor, List.mem_flatMap, List.mem_map]
  exact ⟨i, mem_idx9 i, j, mem_idx9 j, rfl⟩

theorem rowMajor_pairwise : rowMajor.Pairwise Before := by
  decide

theorem Before_irrefl (p : Fin 9 × Fin 9) : ¬ Before p p := by
  unfold Before
  omega

theorem Before_asymm (p q : Fin 9 × Fin 9) (h : Before p q) : ¬ Before q p := by
  unfold Before at *
  omega

/-- Splitting the scan order at a cell: what precedes it in the list is what
precedes it in row-major order. -/
theorem rowMajor_split (l1 l2 : List (Fin 9 × Fin 9)) (p : Fin 9 × Fin 9)
    (h : rowMajor = l1 ++ p :: l2) (q : Fin 9 × Fin 9) : q ∈ l1 ↔ Before q p := by
  have hpw := rowMajor_pairwise
  rw [h, List.pairwise_append] at hpw
  obtain ⟨_, hp2, hp3⟩ := hpw
  constructor
  · intro hq
    exact hp3 q hq p (List.mem_cons_self _ _)
  · intro hb
    have hq : q ∈ l1 ++ p :: l2 := h ▸ mem_rowMajor q
    rcases List.mem_append.1 hq with hq | hq
    · exact hq
    · rcases List.mem_cons.1 hq with rfl | hq
      · exact absurd hb (Before_irrefl _)
      · exact absurd hb (Before_asymm _ _ ((List.pairwise_cons.1 hp2).1 q hq))

theorem firstForced_rowMajor_iff (board : Grid) (p : Fin 9 × Fin 9) :
    firstForced board rowMajor = some p ↔
      Forced board p ∧ ∀ q, Before q p → ¬ Forced board q := by
  constructor
  · intro h
    obtain ⟨l1, l2, e, hp, h1⟩ := firstForced_some board rowMajor p h
    exact ⟨hp, fun q hq => h1 q ((rowMajor_split l1 l2 p e q).2 hq)⟩
  · rintro ⟨hp, h1⟩
    obtain ⟨l1, l2, e⟩ := List.append_of_mem (mem_rowMajor p)
    rw [e]
    exact firstForced_split board l1 l2 p hp
      (fun q hq => h1 q ((rowMajor_split l1 l2 p e q).1 hq))

theorem Solve_succ (srt : List Cell → List Cell) (fuel : Nat) (board : Grid) :
    Solve srt (fuel + 1) board =
      scanResult (Backtrack srt (Solve srt fuel) fuel) board rowMajor true := by
  rw [Solve, solveFrom_eq]

theorem setCell_same (board : Grid) (r c : Fin 9) (v : Int) : setCell board r c v r c = v := by
  simp [setCell]

theorem setCell_other (board : Grid) (r c i j : Fin 9) (v : Int) (h : ¬ (i = r ∧ j = c)) :
    setCell board r c v i j = board i j := by
  simp only [setCell, if_neg h]

theorem revert_eq (board backup : Grid) : revert board backup = backup := by
  funext i j
  by_cases h : board i j = backup i j
  · simp [revert, h]
  · simp [revert, h]

theorem emptyCount_setCell (board : Grid) (r c : Fin 9) (v : Int) (he : board r c < 1)
    (hv : 1 ≤ v) : emptyCount (setCell board r c v) + 1 = emptyCount board := by
  unfold emptyCount
  have hmem : (r, c) ∈ Finset.univ.filter (fun p : Fin 9 × Fin 9 => board p.1 p.2 < 1) := by
    simp [he]
  have hset : Finset.univ.filter (fun p : Fin 9 × Fin 9 => setCell board r c v p.1 p.2 < 1) =
      (Finset.univ.filter (fun p : Fin 9 × Fin 9 => board p.1 p.2 < 1)).erase (r, c) := by
    ext ⟨i, j⟩
    simp only [Finset.mem_filter, Finset.mem_univ, true_and, Finset.mem_erase, ne_eq,
      Prod.mk.injEq]
    by_cases h : i = r ∧ j = c
    · obtain ⟨rfl, rfl⟩ := h
      simp only [setCell_same, and_self, not_true_eq_false, false_and, iff_false]
      omega
    · simp only [setCell_other board r c i j v h, h, not_false_eq_true, true_and]
  rw [hset, Finset.card_erase_of_mem hmem]
  have hpos : 0 < (Finset.univ.filter (fun p : Fin 9 × Fin 9 => board p.1 p.2 < 1)).card :=
    Finset.card_pos.2 ⟨_, hmem⟩
  omega

theorem emptyCount_pos (board : Grid) (r c : Fin 9) (he : board r c < 1) :
    0 < emptyCount board := by
  unfold emptyCount
  exact Finset.card_pos.2 ⟨(r, c), by simp [he]⟩

theorem emptyCount_le (board : Grid) : emptyCount board ≤ 81 := by
  unfold emptyCount
  calc (Finset.univ.filter (fun p : Fin 9 × Fin 9 => board p.1 p.2 < 1)).card
      ≤ (Finset.univ : Finset (Fin 9 × Fin 9)).card := Finset.card_filter_le _ _
    _ = 81 := by decide

theorem Reach.trans {a b c : Grid} (h1 : Reach a b) (h2 : Reach b c) : Reach a c := by
  induction h1 with
  | refl _ => exact h2
  | step i j d he hd _ ih => exact Reach.step i j d he hd (ih h2)

theorem Reach.single {b : Grid} (i j : Fin 9) (d : Int) (he : b i j < 1)
    (hd : d ∈ Solutions b i j) : Reach b (setCell b i j d) :=
  Reach.step i j d he hd (Reach.refl _)

theorem Reach.keep {b b2 : Grid} (h : Reach b b2) :
    ∀ i j, 1 ≤ b i j → b2 i j = b i j := by
  induction h with
  | refl _ => intro _ _ _; rfl
  | @step b b2 i j d he hd _ ih =>
    intro r c hrc
    have hne : ¬ (r = i ∧ c = j) := by
      rintro ⟨rfl, rfl⟩
      omega
    have h1 : setCell b i j d r c = b r c := setCell_other b i j r c d hne
    rw [ih r c (by rw [h1]; exact hrc), h1]

theorem Reach.empties_le {b b2 : Grid} (h : Reach b b2) : emptyCount b2 ≤ emptyCount b := by
  induction h with
  | refl _ => exact le_refl _
  | @step b b2 i j d he hd _ ih =>
    have := emptyCount_setCell b i j d he ((mem_Solutions b i j d).1 hd).1
    omega

theorem inBox_self (r c : Fin 9) : inBox r c r c := by
  unfold inBox
  omega

theorem inBox_shift (r c i j i2 j2 : Fin 9) (h1 : inBox r c i j) (h2 : inBox r c i2 j2) :
    inBox i j i2 j2 := by
  unfold inBox at *
  omega

theorem NoRepeat_setCell (board : Grid) (r c : Fin 9) (v : Int) (hn : NoRepeat board)
    (hv : Legal board r c v) : NoRepeat (setCell board r c v) := by
  obtain ⟨_, _, hrow, hcol, hbox⟩ := hv
  intro d hd1 hd9
  obtain ⟨nr, nc, nb⟩ := hn d hd1 hd9
  refine ⟨?_, ?_, ?_⟩
  · intro i j j2 e1 e2
    by_cases h1 : i = r ∧ j = c <;> by_cases h2 : i = r ∧ j2 = c
    · rw [h1.2, h2.2]
    · obtain ⟨rfl, rfl⟩ := h1
      rw [setCell_same] at e1
      rw [setCell_other _ _ _ _ _ _ h2] at e2
      exact absurd (e2.trans e1.symm) (hrow j2)
    · obtain ⟨rfl, rfl⟩ := h2
      rw [setCell_same] at e2
      rw [setCell_other _ _ _ _ _ _ h1] at e1
      exact absurd (e1.trans e2.symm) (hrow j)
    · rw [setCell_other _ _ _ _ _ _ h1] at e1
      rw [setCell_other _ _ _ _ _ _ h2] at e2
      exact nr i j j2 e1 e2
  · intro i i2 j e1 e2
    by_cases h1 : i = r ∧ j = c <;> by_cases h2 : i2 = r ∧ j = c
    · rw [h1.1, h2.1]
    · obtain ⟨rfl, rfl⟩ := h1
      rw [setCell_same] at e1
      rw [setCell_other _ _ _ _ _ _ h2] at e2
      exact absurd (e2.trans e1.symm) (hcol i2)
    · obtain ⟨rfl, rfl⟩ := h2
      rw [setCell_same] at e2
      rw [setCell_other _ _ _ _ _ _ h1] at e1
      exact absurd (e1.trans e2.symm) (hcol i)
    · rw [setCell_other _ _ _ _ _ _ h1] at e1
      rw [setCell_other _ _ _ _ _ _ h2] at e2
      exact nc i i2 j e1 e2
  · intro r0 c0 i j i2 j2 b1 b2 e1 e2
    by_cases h1 : i = r ∧ j = c <;> by_cases h2 : i2 = r ∧ j2 = c
    · exact ⟨h1.1.trans h2.1.symm, h1.2.trans h2.2.symm⟩
    · obtain ⟨rfl, rfl⟩ := h1
      rw [setCell_same] at e1
      rw [setCell_other _ _ _ _ _ _ h2] at e2
      exact absurd (e2.trans e1.symm) (hbox i2 j2 (inBox_shift r0 c0 _ _ _ _ b1 b2))
    · obtain ⟨rfl, rfl⟩ := h2
      rw [setCell_same] at e2
      rw [setCell_other _ _ _ _ _ _ h1] at e1
      exact absurd (e1.trans e2.symm) (hbox i j (inBox_shift r0 c0 _ _ _ _ b2 b1))
    · rw [setCell_other _ _ _ _ _ _ h1] at e1
      rw [setCell_other _ _ _ _ _ _ h2] at e2
      exact nb r0 c0 i j i2 j2 b1 b2 e1 e2

theorem le9_setCell (board : Grid) (r c : Fin 9) (v : Int) (hb : ∀ i j, board i j ≤ 9)
    (hv : v ≤ 9) : ∀ i j, setCell board r c v i j ≤ 9 := by
  intro i j
  by_cases h : i = r ∧ j = c
  · obtain ⟨rfl, rfl⟩ := h
    rw [setCell_same]; exact hv
  · rw [setCell_other _ _ _ _ _ _ h]; exact hb i j

theorem Reach.noRepeat {b b2 : Grid} (h : Reach b b2) (hn : NoRepeat b)
    (h9 : ∀ i j, b i j ≤ 9) : NoRepeat b2 ∧ ∀ i j, b2 i j ≤ 9 := by
  induction h with
  | refl _ => exact ⟨hn, h9⟩
  | @step b b2 i j d he hd _ ih =>
    have hl := (mem_Solutions b i j d).1 hd
    exact ih (NoRepeat_setCell b i j d hn hl) (le9_setCell b i j d h9 hl.2.1)

theorem digit_surj (S : Finset (Fin 9 × Fin 9)) (hS : S.card = 9) (f : Fin 9 × Fin 9 → Int)
    (hr : ∀ p ∈ S, 1 ≤ f p ∧ f p ≤ 9) (hinj : ∀ p ∈ S, ∀ q ∈ S, f p = f q → p = q)
    (d : Int) (hd1 : 1 ≤ d) (hd9 : d ≤ 9) : ∃ p ∈ S, f p = d := by
  have hsub : S.image f ⊆ Finset.Icc (1 : Int) 9 := by
    intro x hx
    obtain ⟨p, hp, rfl⟩ := Finset.mem_image.1 hx
    exact Finset.mem_Icc.2 (hr p hp)
  have hcard : (S.image f).card = 9 := by
    rw [Finset.card_image_of_injOn, hS]
    intro p hp q hq e
    exact hinj p hp q hq e
  have hIcc : (Finset.Icc (1 : Int) 9).card = 9 := by
    simp [Int.card_Icc]
  have heq : S.image f = Finset.Icc (1 : Int) 9 :=
    Finset.eq_of_subset_of_card_le hsub (by rw [hIcc, hcard])
  have hd : d ∈ S.image f := by
    rw [heq]; exact Finset.mem_Icc.2 ⟨hd1, hd9⟩
  obtain ⟨p, hp, e⟩ := Finset.mem_image.1 hd
  exact ⟨p, hp, e⟩

theorem card_rowCells : ∀ i : Fin 9,
    (Finset.univ.filter (fun p : Fin 9 × Fin 9 => p.1 = i)).card = 9 := by
  decide

theorem card_colCells : ∀ j : Fin 9,
    (Finset.univ.filter (fun p : Fin 9 × Fin 9 => p.2 = j)).card = 9 := by
  decide

theorem card_boxCells : ∀ r c : Fin 9,
    (Finset.univ.filter (fun p : Fin 9 × Fin 9 => inBox r c p.1 p.2)).card = 9 := by
  decide

theorem Valid_of_full (board : Grid) (hf : Full board) (h9 : ∀ i j, board i j ≤ 9)
    (hn : NoRepeat board) : Valid board := by
  refine ⟨hf, h9, ?_⟩
  intro d hd1 hd9
  have hrange : ∀ (S : Finset (Fin 9 × Fin 9)), ∀ p ∈ S,
      1 ≤ board p.1 p.2 ∧ board p.1 p.2 ≤ 9 := fun _ p _ => ⟨hf p.1 p.2, h9 p.1 p.2⟩
  refine ⟨?_, ?_, ?_⟩
  · intro i
    obtain ⟨p, hp, e⟩ := digit_surj _ (card_rowCells i) (fun p => board p.1 p.2)
      (hrange _) (by
        intro p hp q hq e
        simp only [Finset.mem_filter, Finset.mem_univ, true_and] at hp hq
        have hq9 := h9 q.1 q.2
        have hq1 := hf q.1 q.2
        have := (hn (board q.1 q.2) hq1 hq9).1 i p.2 q.2 (by rw [← hp]; exact e) (by rw [← hq])
        exact Prod.ext (hp.trans hq.symm) this) d hd1 hd9
    simp only [Finset.mem_filter, Finset.mem_univ, true_and] at hp
    refine ⟨p.2, by rw [← hp]; exact e, ?_⟩
    intro j hj
    exact (hn d hd1 hd9).1 i j p.2 hj (by rw [← hp]; exact e)
  · intro j
    obtain ⟨p, hp, e⟩ := digit_surj _ (card_colCells j) (fun p => board p.1 p.2)
      (hrange _) (by
        intro p hp q hq e
        simp only [Finset.mem_filter, Finset.mem_univ, true_and] at hp hq
        have hq9 := h9 q.1 q.2
        have hq1 := hf q.1 q.2
        have := (hn (board q.1 q.2) hq1 hq9).2.1 p.1 q.1 j (by rw [← hp]; exact e) (by rw [← hq])
        exact Prod.ext this (hp.trans hq.symm)) d hd1 hd9
    simp only [Finset.mem_filter, Finset.mem_univ, true_and] at hp
    refine ⟨p.1, by rw [← hp]; exact e, ?_⟩
    intro i hi
    exact (hn d hd1 hd9).2.1 i p.1 j hi (by rw [← hp]; exact e)
  · intro r c
    obtain ⟨p, hp, e⟩ := digit_surj _ (card_boxCells r c) (fun p => board p.1 p.2)
      (hrange _) (by
        intro p hp q hq e
        simp only [Finset.mem_filter, Finset.mem_univ, true_and] at hp hq
        have hq9 := h9 q.1 q.2
        have hq1 := hf q.1 q.2
        have := (hn (board q.1 q.2) hq1 hq9).2.2 r c p.1 p.2 q.1 q.2 hp hq e rfl
        exact Prod.ext this.1 this.2) d hd1 hd9
    simp only [Finset.mem_filter, Finset.mem_univ, true_and] at hp
    refine ⟨p, ⟨hp, e⟩, ?_⟩
    rintro q ⟨hq, eq⟩
    have := (hn d hd1 hd9).2.2 r c q.1 q.2 p.1 p.2 hq hp eq e
    exact Prod.ext this.1 this.2

theorem solveLoop_spec (solve : Grid → Run) (n : Nat) (hs : SolveSpec solve n)
    (backup : Grid) (k : Nat) (c : Grid) :
    (solveLoop solve backup k c = Run.outOfFuel → k ≤ emptyCount c ∨ n ≤ emptyCount c) ∧
    solveLoop solve backup k c ≠ Run.indexPanic ∧
    ∀ b2 s e, solveLoop solve backup k c = Run.done b2 s e → LoopPost backup c b2 s e := by
  induction k generalizing c with
  | zero =>
    refine ⟨fun _ => Or.inl (Nat.zero_le _), ?_, ?_⟩
    · simp [solveLoop]
    · intro b2 s e h; simp [solveLoop] at h
  | succ k ih =>
    obtain ⟨hfuel, hpanic, hdone⟩ := hs c
    rcases h : solve c with ⟨b1, s1, e1⟩ | _ | _
    · obtain ⟨p1, p2, p3⟩ := hdone b1 s1 e1 h
      cases e1 with
      | some x =>
        obtain ⟨hs1, _⟩ := p1 x rfl
        subst hs1
        simp only [solveLoop, h]
        refine ⟨by simp, by simp, ?_⟩
        intro b2 s e he
        simp only [Run.done.injEq] at he
        obtain ⟨rfl, rfl, rfl⟩ := he
        exact Or.inl ⟨x, rfl, rfl, revert_eq _ _⟩
      | none =>
        cases s1 with
        | true =>
          obtain ⟨hfull, hreach⟩ := p2 rfl rfl
          simp only [solveLoop, h]
          refine ⟨by simp, by simp, ?_⟩
          intro b2 s e he
          simp only [Run.done.injEq] at he
          obtain ⟨rfl, rfl, rfl⟩ := he
          exact Or.inr ⟨rfl, rfl, hfull, hreach⟩
        | false =>
          obtain ⟨i, j, d, hemp, hsol, rfl⟩ := p3 rfl rfl
          have hd : d ∈ Solutions c i j := by simp [hsol]
          have hcount := emptyCount_setCell c i j d hemp ((mem_Solutions c i j d).1 hd).1
          obtain ⟨ih1, ih2, ih3⟩ := ih (setCell c i j d)
          simp only [solveLoop, h]
          refine ⟨?_, ih2, ?_⟩
          · intro ho
            rcases ih1 ho with h1 | h1
            · left; omega
            · right; omega
          · intro b2 s e he
            rcases ih3 b2 s e he with h1 | ⟨h1, h2, h3, h4⟩
            · exact Or.inl h1
            · exact Or.inr ⟨h1, h2, h3, Reach.step i j d hemp hd h4⟩
    · exact absurd h hpanic
    · simp only [solveLoop, h]
      refine ⟨fun _ => Or.inr (hfuel h), by simp, ?_⟩
      intro b2 s e he
      simp at he

theorem tryOptions_spec (solve : Grid → Run) (n : Nat) (hs : SolveSpec solve n)
    (k : Nat) (r c : Fin 9) (b : Grid) (hemp : b r c < 1) (opts : List Int)
    (hopts : ∀ s ∈ opts, s ∈ Solutions b r c) :
    (tryOptions solve k r c b opts = Run.outOfFuel →
      k + 1 ≤ emptyCount b ∨ n + 1 ≤ emptyCount b) ∧
    tryOptions solve k r c b opts ≠ Run.indexPanic ∧
    ∀ b2 s e, tryOptions solve k r c b opts = Run.done b2 s e → TryPost b b2 s e := by
  induction opts with
  | nil =>
    refine ⟨by simp [tryOptions], by simp [tryOptions], ?_⟩
    intro b2 s e he
    simp only [tryOptions, Run.done.injEq] at he
    obtain ⟨rfl, rfl, rfl⟩ := he
    exact Or.inl ⟨rfl, rfl, rfl⟩
  | cons d rest ih =>
    have hd : d ∈ Solutions b r c := hopts d (List.mem_cons_self _ _)
    have hrest : ∀ s ∈ rest, s ∈ Solutions b r c :=
      fun s hs => hopts s (List.mem_cons_of_mem _ hs)
    have hcount := emptyCount_setCell b r c d hemp ((mem_Solutions b r c d).1 hd).1
    obtain ⟨l1, l2, l3⟩ := solveLoop_spec solve n hs b k (setCell b r c d)
    obtain ⟨ih1, ih2, ih3⟩ := ih hrest
    rcases h : solveLoop solve b k (setCell b r c d) with ⟨b1, s1, e1⟩ | _ | _
    · cases s1 with
      | true =>
        simp only [tryOptions, h]
        refine ⟨by simp, by simp, ?_⟩
        intro b2 s e he
        simp only [Run.done.injEq] at he
        obtain ⟨rfl, rfl, rfl⟩ := he
        rcases l3 _ _ _ h with ⟨x, _, hx, _⟩ | ⟨_, _, hfull, hreach⟩
        · cases hx
        · exact Or.inr ⟨rfl, rfl, hfull, Reach.step r c d hemp hd hreach⟩
      | false =>
        rcases l3 _ _ _ h with ⟨x, _, _, hb⟩ | ⟨_, hx, _, _⟩
        · subst hb
          simp only [tryOptions, h]
          exact ⟨ih1, ih2, ih3⟩
        · cases hx
    · exact absurd h l2
    · simp only [tryOptions, h]
      refine ⟨?_, by simp, ?_⟩
      · intro _
        rcases l1 h with h1 | h1
        · left; omega
        · right; omega
      · intro b2 s e he
        simp at he

/-- The unsorted slice of `Options`: one entry per empty cell. -/
theorem mem_Options_false (srt : List Cell → List Cell) (b : Grid) (o : Cell) :
    o ∈ Options srt b false ↔
      b o.row o.col < 1 ∧ o.options = Solutions b o.row o.col := by
  simp only [Options, Bool.false_eq_true, if_false, List.mem_map, List.mem_filter,
    decide_eq_true_eq, Prod.exists]
  constructor
  · rintro ⟨i, j, ⟨_, he⟩, rfl⟩
    exact ⟨he, rfl⟩
  · rintro ⟨he, ho⟩
    refine ⟨o.row, o.col, ⟨mem_rowMajor _, he⟩, ?_⟩
    cases o
    simp only at ho
    simp [ho]

theorem Options_true_perm (srt : List Cell → List Cell) (hsrt : IsSliceSort srt) (b : Grid) :
    (Options srt b true).Perm (Options srt b false) := by
  simp only [Options, if_true, Bool.false_eq_true, if_false]
  exact (hsrt _).1

theorem mem_Options_true (srt : List Cell → List Cell) (hsrt : IsSliceSort srt) (b : Grid)
    (o : Cell) : o ∈ Options srt b true ↔
      b o.row o.col < 1 ∧ o.options = Solutions b o.row o.col := by
  rw [(Options_true_perm srt hsrt b).mem_iff, mem_Options_false]

theorem Options_true_ne_nil (srt : List Cell → List Cell) (hsrt : IsSliceSort srt) (b : Grid)
    (r c : Fin 9) (he : b r c < 1) : Options srt b true ≠ [] := by
  have h : Cell.mk r c (Solutions b r c) ∈ Options srt b true :=
    (mem_Options_true srt hsrt b _).2 ⟨he, rfl⟩
  intro hnil
  rw [hnil] at h
  cases h

theorem Backtrack_spec (srt : List Cell → List Cell) (hsrt : IsSliceSort srt)
    (solve : Grid → Run) (n : Nat) (hs : SolveSpec solve n) (k : Nat) (b : Grid)
    (r c : Fin 9) (he : b r c < 1) :
    (Backtrack srt solve k b = Run.outOfFuel →
      k + 1 ≤ emptyCount b ∨ n + 1 ≤ emptyCount b) ∧
    Backtrack srt solve k b ≠ Run.indexPanic ∧
    ∀ b2 s e, Backtrack srt solve k b = Run.done b2 s e → TryPost b b2 s e := by
  rcases h : Options srt b true with _ | ⟨o, rest⟩
  · exact absurd h (Options_true_ne_nil srt hsrt b r c he)
  · have ho : o ∈ Options srt b true := by rw [h]; exact List.mem_cons_self _ _
    obtain ⟨hoe, hoo⟩ := (mem_Options_true srt hsrt b o).1 ho
    have := tryOptions_spec solve n hs k o.row o.col b hoe o.options
      (by intro s hs; rw [← hoo]; exact hs)
    simpa only [Backtrack, h] using this

/-- The forced cell of a scan that stops has no or exactly one candidate. -/
theorem Forced_cases (b : Grid) (p : Fin 9 × Fin 9) (h : Forced b p) :
    Solutions b p.1 p.2 = [] ∨ ∃ d, Solutions b p.1 p.2 = [d] := by
  obtain ⟨_, hlen⟩ := h
  rcases hs : Solutions b p.1 p.2 with _ | ⟨d, _ | ⟨d2, t⟩⟩
  · exact Or.inl rfl
  · exact Or.inr ⟨d, rfl⟩
  · rw [hs] at hlen
    simp only [List.length_cons] at hlen
    omega

/-- The four ways a call of `Solve` with fuel ends, read off the board. -/
theorem Solve_cases (srt : List Cell → List Cell) (fuel : Nat) (b : Grid) :
    (∃ p, firstForced b rowMajor = some p ∧ Solutions b p.1 p.2 = [] ∧
      Solve srt (fuel + 1) b = Run.done b false (some (SolveError.noSolutions p.1 p.2))) ∨
    (∃ p d, firstForced b rowMajor = some p ∧ Solutions b p.1 p.2 = [d] ∧
      Solve srt (fuel + 1) b = Run.done (setCell b p.1 p.2 d) false none) ∨
    (firstForced b rowMajor = none ∧ Full b ∧
      Solve srt (fuel + 1) b = Run.done b true none) ∨
    (firstForced b rowMajor = none ∧ (∃ r c, b r c < 1) ∧
      Solve srt (fuel + 1) b = Backtrack srt (Solve srt fuel) fuel b) := by
  rw [Solve_succ]
  unfold scanResult
  rcases hff : firstForced b rowMajor with _ | p
  · by_cases hfull : ∀ q ∈ rowMajor, 1 ≤ b q.1 q.2
    · right; right; left
      refine ⟨rfl, fun i j => hfull (i, j) (mem_rowMajor _), ?_⟩
      simp only [true_and, if_pos hfull]
    · right; right; right
      refine ⟨rfl, ?_, ?_⟩
      · by_contra hne
        apply hfull
        intro q _
        by_contra hq
        exact hne ⟨q.1, q.2, by omega⟩
      · simp only [true_and, if_neg hfull]
  · obtain ⟨_, _, _, hp, _⟩ := firstForced_some b rowMajor p hff
    rcases Forced_cases b p hp with h0 | ⟨d, h1⟩
    · left
      exact ⟨p, rfl, h0, by simp only [h0]⟩
    · right; left
      exact ⟨p, d, rfl, h1, by simp only [h1]⟩

theorem Solve_spec (srt : List Cell → List Cell) (hsrt : IsSliceSort srt) (n : Nat) :
    SolveSpec (Solve srt n) n := by
  induction n with
  | zero =>
    intro b
    refine ⟨fun _ => Nat.zero_le _, by simp [Solve], ?_⟩
    intro b2 s e h
    simp [Solve] at h
  | succ n ih =>
    intro b
    rcases Solve_cases srt n b with ⟨p, hff, h0, hS⟩ | ⟨p, d, hff, h1, hS⟩ | ⟨_, hfull, hS⟩ |
      ⟨_, ⟨r, c, he⟩, hS⟩
    · rw [hS]
      refine ⟨by simp, by simp, ?_⟩
      intro b2 s e h
      simp only [Run.done.injEq] at h
      obtain ⟨rfl, rfl, rfl⟩ := h
      exact ⟨fun _ _ => ⟨rfl, rfl⟩, by simp, by simp⟩
    · rw [hS]
      refine ⟨by simp, by simp, ?_⟩
      intro b2 s e h
      simp only [Run.done.injEq] at h
      obtain ⟨rfl, rfl, rfl⟩ := h
      obtain ⟨_, _, _, hp, _⟩ := firstForced_some b rowMajor p hff
      exact ⟨by simp, by simp, fun _ _ => ⟨p.1, p.2, d, hp.1, h1, rfl⟩⟩
    · rw [hS]
      refine ⟨by simp, by simp, ?_⟩
      intro b2 s e h
      simp only [Run.done.injEq] at h
      obtain ⟨rfl, rfl, rfl⟩ := h
      exact ⟨by simp, fun _ _ => ⟨hfull, Reach.refl _⟩, by simp⟩
    · rw [hS]
      obtain ⟨b1, b2, b3⟩ := Backtrack_spec srt hsrt (Solve srt n) n ih n b r c he
      refine ⟨?_, b2, ?_⟩
      · intro h
        rcases b1 h with h | h <;> exact h
      · intro g s e h
        rcases b3 g s e h with ⟨rfl, rfl, rfl⟩ | ⟨rfl, rfl, hfull, hreach⟩
        · exact ⟨fun _ _ => ⟨rfl, rfl⟩, by simp, by simp⟩
        · exact ⟨by simp, fun _ _ => ⟨hfull, hreach⟩, by simp⟩

theorem Post.reach {b b2 : Grid} {s : Bool} {e : Option SolveError} (h : Post b b2 s e) :
    Reach b b2 := by
  obtain ⟨p1, p2, p3⟩ := h
  cases e with
  | some x => rw [(p1 x rfl).2]; exact Reach.refl _
  | none =>
    cases s with
    | true => exact (p2 rfl rfl).2
    | false =>
      obtain ⟨i, j, d, he, hs, rfl⟩ := p3 rfl rfl
      exact Reach.single i j d he (by simp [hs])

theorem TryPost.to_reach {b b2 : Grid} {s : Bool} {e : Option SolveError}
    (h : TryPost b b2 s e) : Reach b b2 := by
  rcases h with ⟨_, _, rfl⟩ | ⟨_, _, _, h⟩
  · exact Reach.refl _
  · exact h

theorem Options_nil_of_full (srt : List Cell → List Cell) (hsrt : IsSliceSort srt) (b : Grid)
    (hf : Full b) : Options srt b true = [] := by
  rcases h : Options srt b true with _ | ⟨o, rest⟩
  · rfl
  · have ho : o ∈ Options srt b true := by rw [h]; exact List.mem_cons_self _ _
    have := ((mem_Options_true srt hsrt b o).1 ho).1
    have := hf o.row o.col
    omega

/-- On a board without an empty cell `Backtrack` panics on `options[0]`. -/
theorem Backtrack_full (srt : List Cell → List Cell) (hsrt : IsSliceSort srt)
    (solve : Grid → Run) (k : Nat) (b : Grid) (hf : Full b) :
    Backtrack srt solve k b = Run.indexPanic := by
  simp only [Backtrack, Options_nil_of_full srt hsrt b hf]

theorem Backtrack_done (srt : List Cell → List Cell) (hsrt : IsSliceSort srt)
    (solve : Grid → Run) (n : Nat) (hs : SolveSpec solve n) (k : Nat) (b b2 : Grid)
    (s : Bool) (e : Option SolveError) (h : Backtrack srt solve k b = Run.done b2 s e) :
    TryPost b b2 s e := by
  by_cases hf : Full b
  · rw [Backtrack_full srt hsrt solve k b hf] at h
    cases h
  · have hex : ∃ r c, b r c < 1 := by
      by_contra hne
      apply hf
      intro i j
      by_contra hq
      exact hne ⟨i, j, by omega⟩
    obtain ⟨r, c, he⟩ := hex
    exact (Backtrack_spec srt hsrt solve n hs k b r c he).2.2 b2 s e h

theorem mainLoop_spec (solve : Grid → Run) (n : Nat) (hs : SolveSpec solve n) (k : Nat)
    (b : Grid) (s0 : Bool) (h0 : s0 = true → Full b) :
    (mainLoop solve k b s0 = Run.outOfFuel → k ≤ emptyCount b ∨ n ≤ emptyCount b) ∧
    mainLoop solve k b s0 ≠ Run.indexPanic ∧
    ∀ b2 s e, mainLoop solve k b s0 = Run.done b2 s e →
      Reach b b2 ∧ ((∃ x, e = some x ∧ s = false) ∨ (e = none ∧ s = true ∧ Full b2)) := by
  induction k generalizing b s0 with
  | zero =>
    cases s0 with
    | true =>
      refine ⟨by simp [mainLoop], by simp [mainLoop], ?_⟩
      intro b2 s e h
      simp only [mainLoop, Run.done.injEq] at h
      obtain ⟨rfl, rfl, rfl⟩ := h
      exact ⟨Reach.refl _, Or.inr ⟨rfl, rfl, h0 rfl⟩⟩
    | false =>
      refine ⟨fun _ => Or.inl (Nat.zero_le _), by simp [mainLoop], ?_⟩
      intro b2 s e h
      simp [mainLoop] at h
  | succ k ih =>
    cases s0 with
    | true =>
      refine ⟨by simp [mainLoop], by simp [mainLoop], ?_⟩
      intro b2 s e h
      simp only [mainLoop, Run.done.injEq] at h
      obtain ⟨rfl, rfl, rfl⟩ := h
      exact ⟨Reach.refl _, Or.inr ⟨rfl, rfl, h0 rfl⟩⟩
    | false =>
      obtain ⟨hfuel, hpanic, hdone⟩ := hs b
      rcases h : solve b with ⟨b1, s1, e1⟩ | _ | _
      · have hpost := hdone b1 s1 e1 h
        cases e1 with
        | some x =>
          simp only [mainLoop, h]
          refine ⟨by simp, by simp, ?_⟩
          intro b2 s e he
          simp only [Run.done.injEq] at he
          obtain ⟨rfl, rfl, rfl⟩ := he
          exact ⟨hpost.reach, Or.inl ⟨x, rfl, (hpost.1 x rfl).1⟩⟩
        | none =>
          have hfull : s1 = true → Full b1 := fun hs1 => (hpost.2.1 rfl hs1).1
          obtain ⟨i1, i2, i3⟩ := ih b1 s1 hfull
          have hle := hpost.reach.empties_le
          simp only [mainLoop, h]
          refine ⟨?_, i2, ?_⟩
          · intro ho
            cases s1 with
            | true => simp [mainLoop] at ho
            | false =>
              obtain ⟨i, j, d, he, hsol, rfl⟩ := hpost.2.2 rfl rfl
              have hd : d ∈ Solutions b i j := by simp [hsol]
              have := emptyCount_setCell b i j d he ((mem_Solutions b i j d).1 hd).1
              rcases i1 ho with h1 | h1
              · left; omega
              · right; omega
          · intro b2 s e he
            obtain ⟨hr, hrest⟩ := i3 b2 s e he
            exact ⟨hpost.reach.trans hr, hrest⟩
      · exact absurd h hpanic
      · simp only [mainLoop, h]
        refine ⟨fun _ => Or.inr (hfuel h), by simp, ?_⟩
        intro b2 s e he
        simp at he

theorem main_spec (srt : List Cell → List Cell) (hsrt : IsSliceSort srt) (n : Nat) (b : Grid) :
    (main srt n b = Run.outOfFuel → n ≤ emptyCount b) ∧
    main srt n b ≠ Run.indexPanic ∧
    ∀ b2 s e, main srt n b = Run.done b2 s e →
      Reach b b2 ∧ ((∃ x, e = some x ∧ s = false) ∨ (e = none ∧ s = true ∧ Full b2)) := by
  have hs := Solve_spec srt hsrt n
  obtain ⟨hfuel, hpanic, hdone⟩ := hs b
  rcases h : Solve srt n b with ⟨b1, s1, e1⟩ | _ | _
  · have hpost := hdone b1 s1 e1 h
    cases e1 with
    | some x =>
      simp only [main, h]
      refine ⟨by simp, by simp, ?_⟩
      intro b2 s e he
      simp only [Run.done.injEq] at he
      obtain ⟨rfl, rfl, rfl⟩ := he
      exact ⟨hpost.reach, Or.inl ⟨x, rfl, (hpost.1 x rfl).1⟩⟩
    | none =>
      have hfull : s1 = true → Full b1 := fun hs1 => (hpost.2.1 rfl hs1).1
      obtain ⟨i1, i2, i3⟩ := mainLoop_spec (Solve srt n) n hs n b1 s1 hfull
      have hle := hpost.reach.empties_le
      simp only [main, h]
      refine ⟨?_, i2, ?_⟩
      · intro ho
        rcases i1 ho with h1 | h1 <;> omega
      · intro b2 s e he
        obtain ⟨hr, hrest⟩ := i3 b2 s e he
        exact ⟨hpost.reach.trans hr, hrest⟩
  · exact absurd h hpanic
  · simp only [main, h]
    refine ⟨fun _ => hfuel h, by simp, ?_⟩
    intro b2 s e he
    simp at he

theorem Completion.extends {b g : Grid} (h : Completion b g) : Extends b g :=
  ⟨h.1, fun i j hij => h.2 i j (by omega)⟩

theorem Extends.legal {b g : Grid} (h : Extends b g) (r c : Fin 9) (he : b r c < 1) :
    Legal b r c (g r c) := by
  obtain ⟨⟨hf, h9, hv⟩, hag⟩ := h
  obtain ⟨vr, vc, vb⟩ := hv (g r c) (hf r c) (h9 r c)
  refine ⟨hf r c, h9 r c, ?_, ?_, ?_⟩
  · intro j e
    have h1 : 1 ≤ b r j := by rw [e]; exact hf r c
    have h2 : g r j = g r c := by rw [hag r j h1, e]
    have h3 : j = c := (vr r).unique h2 rfl
    rw [h3] at h1
    omega
  · intro i e
    have h1 : 1 ≤ b i c := by rw [e]; exact hf r c
    have h2 : g i c = g r c := by rw [hag i c h1, e]
    have h3 : i = r := (vc c).unique h2 rfl
    rw [h3] at h1
    omega
  · intro i j hbox e
    have h1 : 1 ≤ b i j := by rw [e]; exact hf r c
    have h2 : g i j = g r c := by rw [hag i j h1, e]
    have h3 : ((i, j) : Fin 9 × Fin 9) = (r, c) :=
      (vb r c).unique ⟨hbox, h2⟩ ⟨inBox_self r c, rfl⟩
    simp only [Prod.mk.injEq] at h3
    rw [h3.1, h3.2] at h1
    omega

theorem Extends.fill {b g : Grid} (h : Extends b g) (r c : Fin 9) :
    Extends (setCell b r c (g r c)) g := by
  refine ⟨h.1, ?_⟩
  intro i j hij
  by_cases hrc : i = r ∧ j = c
  · obtain ⟨rfl, rfl⟩ := hrc
    rw [setCell_same]
  · rw [setCell_other _ _ _ _ _ _ hrc] at hij ⊢
    exact h.2 i j hij

theorem Extends.puzzle_noRepeat {b g : Grid} (h : Extends b g) : NoRepeat b := by
  obtain ⟨⟨hf, h9, hv⟩, hag⟩ := h
  intro d hd1 hd9
  obtain ⟨vr, vc, vb⟩ := hv d hd1 hd9
  refine ⟨?_, ?_, ?_⟩
  · intro i j j2 e1 e2
    exact (vr i).unique (by rw [hag i j (by omega), e1]) (by rw [hag i j2 (by omega), e2])
  · intro i i2 j e1 e2
    exact (vc j).unique (by rw [hag i j (by omega), e1]) (by rw [hag i2 j (by omega), e2])
  · intro r c i j i2 j2 b1 b2 e1 e2
    have key : ((i, j) : Fin 9 × Fin 9) = (i2, j2) := (vb r c).unique
      ⟨b1, by rw [hag i j (by omega), e1]⟩ ⟨b2, by rw [hag i2 j2 (by omega), e2]⟩
    simpa only [Prod.mk.injEq] using key

theorem solveLoop_complete (solve : Grid → Run) (hc : CompSpec solve) (backup g : Grid)
    (k : Nat) (c : Grid) (hcg : Extends c g) :
    solveLoop solve backup k c = Run.outOfFuel ∨
      ∃ b2, solveLoop solve backup k c = Run.done b2 true none := by
  induction k generalizing c with
  | zero => left; rfl
  | succ k ih =>
    rcases hc c g hcg with h | ⟨b1, s1, h, hext⟩
    · left; simp only [solveLoop, h]
    · cases s1 with
      | true => right; exact ⟨b1, by simp only [solveLoop, h]⟩
      | false =>
        simp only [solveLoop, h]
        exact ih b1 (hext rfl)

theorem tryOptions_complete (solve : Grid → Run) (n : Nat) (hs : SolveSpec solve n)
    (hc : CompSpec solve) (g : Grid) (k : Nat) (r c : Fin 9) (b : Grid)
    (hbg : Extends b g) (opts : List Int) (hg : g r c ∈ opts) :
    tryOptions solve k r c b opts = Run.outOfFuel ∨
      ∃ b2, tryOptions solve k r c b opts = Run.done b2 true none := by
  induction opts with
  | nil => cases hg
  | cons d rest ih =>
    obtain ⟨_, l2, l3⟩ := solveLoop_spec solve n hs b k (setCell b r c d)
    rcases h : solveLoop solve b k (setCell b r c d) with ⟨b1, s1, e1⟩ | _ | _
    · cases s1 with
      | true => right; exact ⟨b1, by simp only [tryOptions, h]⟩
      | false =>
        have hb1 : b1 = b := by
          rcases l3 _ _ _ h with ⟨_, _, _, hb⟩ | ⟨_, hx, _, _⟩
          · exact hb
          · cases hx
        have hne : g r c ≠ d := by
          intro e
          have hext : Extends (setCell b r c d) g := by rw [← e]; exact hbg.fill r c
          rcases solveLoop_complete solve hc b g k _ hext with h2 | ⟨b3, h2⟩
          · rw [h2] at h; cases h
          · rw [h2] at h
            simp only [Run.done.injEq] at h
            cases h.2.1
        have hgr : g r c ∈ rest := by
          rcases List.mem_cons.1 hg with h1 | h1
          · exact absurd h1 hne
          · exact h1
        simp only [tryOptions, h, hb1]
        exact ih hgr
    · exact absurd h l2
    · left; simp only [tryOptions, h]

theorem Backtrack_complete (srt : List Cell → List Cell) (hsrt : IsSliceSort srt)
    (solve : Grid → Run) (n : Nat) (hs : SolveSpec solve n) (hc : CompSpec solve) (g : Grid)
    (k : Nat) (b : Grid) (hbg : Extends b g) (r c : Fin 9) (he : b r c < 1) :
    Backtrack srt solve k b = Run.outOfFuel ∨
      ∃ b2, Backtrack srt solve k b = Run.done b2 true none := by
  rcases h : Options srt b true with _ | ⟨o, rest⟩
  · exact absurd h (Options_true_ne_nil srt hsrt b r c he)
  · have ho : o ∈ Options srt b true := by rw [h]; exact List.mem_cons_self _ _
    obtain ⟨hoe, hoo⟩ := (mem_Options_true srt hsrt b o).1 ho
    have hg : g o.row o.col ∈ o.options := by
      rw [hoo]
      exact (mem_Solutions b o.row o.col _).2 (hbg.legal o.row o.col hoe)
    have := tryOptions_complete solve n hs hc g k o.row o.col b hbg o.options hg
    simpa only [Backtrack, h] using this

theorem Solve_complete (srt : List Cell → List Cell) (hsrt : IsSliceSort srt) (n : Nat) :
    CompSpec (Solve srt n) := by
  induction n with
  | zero => intro b g _; left; rfl
  | succ n ih =>
    intro b g hbg
    rcases Solve_cases srt n b with ⟨p, hff, h0, hS⟩ | ⟨p, d, hff, h1, hS⟩ | ⟨_, hfull, hS⟩ |
      ⟨_, ⟨r, c, he⟩, hS⟩
    · obtain ⟨_, _, _, hp, _⟩ := firstForced_some b rowMajor p hff
      have := (mem_Solutions b p.1 p.2 _).2 (hbg.legal p.1 p.2 hp.1)
      rw [h0] at this
      cases this
    · obtain ⟨_, _, _, hp, _⟩ := firstForced_some b rowMajor p hff
      have hmem := (mem_Solutions b p.1 p.2 _).2 (hbg.legal p.1 p.2 hp.1)
      rw [h1, List.mem_singleton] at hmem
      right
      refine ⟨_, false, hS, fun _ => ?_⟩
      rw [← hmem]
      exact hbg.fill p.1 p.2
    · right
      exact ⟨b, true, hS, by simp⟩
    · rw [hS]
      rcases Backtrack_complete srt hsrt (Solve srt n) n (Solve_spec srt hsrt n) ih g n b hbg
        r c he with h | ⟨b2, h⟩
      · left; exact h
      · right; exact ⟨b2, true, h, by simp⟩

theorem mainLoop_complete (solve : Grid → Run) (hc : CompSpec solve) (g : Grid) (k : Nat)
    (b : Grid) (s0 : Bool) (hbg : s0 = false → Extends b g) :
    mainLoop solve k b s0 = Run.outOfFuel ∨
      ∃ b2, mainLoop solve k b s0 = Run.done b2 true none := by
  induction k generalizing b s0 with
  | zero =>
    cases s0 with
    | true => right; exact ⟨b, rfl⟩
    | false => left; rfl
  | succ k ih =>
    cases s0 with
    | true => right; exact ⟨b, rfl⟩
    | false =>
      rcases hc b g (hbg rfl) with h | ⟨b1, s1, h, hext⟩
      · left; simp only [mainLoop, h]
      · simp only [mainLoop, h]
        exact ih b1 s1 hext

theorem main_complete (srt : List Cell → List Cell) (hsrt : IsSliceSort srt) (n : Nat)
    (b g : Grid) (hbg : Extends b g) :
    main srt n b = Run.outOfFuel ∨ ∃ b2, main srt n b = Run.done b2 true none := by
  rcases Solve_complete srt hsrt n b g hbg with h | ⟨b1, s1, h, hext⟩
  · left; simp only [main, h]
  · simp only [main, h]
    exact mainLoop_complete (Solve srt n) (Solve_complete srt hsrt n) g n b1 s1 hext

/-- With fuel above the number of empty cells `Solve` returns, and what it
returns obeys `Post`. -/
theorem Solve_returns (srt : List Cell → List Cell) (hsrt : IsSliceSort srt) (fuel : Nat)
    (b : Grid) (hfuel : emptyCount b < fuel) :
    ∃ b2 s e, Solve srt fuel b = Run.done b2 s e ∧ Post b b2 s e := by
  obtain ⟨h1, h2, h3⟩ := Solve_spec srt hsrt fuel b
  rcases h : Solve srt fuel b with ⟨b2, s, e⟩ | _ | _
  · exact ⟨b2, s, e, rfl, h3 b2 s e h⟩
  · exact absurd h h2
  · have := h1 h
    omega

/-- With fuel above the number of empty cells the driver returns. -/
theorem main_returns (srt : List Cell → List Cell) (hsrt : IsSliceSort srt) (fuel : Nat)
    (b : Grid) (hfuel : emptyCount b < fuel) :
    ∃ b2 s e, main srt fuel b = Run.done b2 s e := by
  obtain ⟨h1, h2, _⟩ := main_spec srt hsrt fuel b
  rcases h : main srt fuel b with ⟨b2, s, e⟩ | _ | _
  · exact ⟨b2, s, e, rfl⟩
  · exact absurd h h2
  · have := h1 h
    omega

theorem insertionSlice_isSliceSort : IsSliceSort insertionSlice := by
  intro l
  refine ⟨List.perm_insertionSort _ l, ?_⟩
  have htot : IsTotal Cell (fun a b => a.options.length ≤ b.options.length) :=
    ⟨fun a b => Nat.le_total _ _⟩
  have htr : IsTrans Cell (fun a b => a.options.length ≤ b.options.length) :=
    ⟨fun a b c h1 h2 => Nat.le_trans h1 h2⟩
  have hsorted := List.sorted_insertionSort (fun a b : Cell => a.options.length ≤ b.options.length) l
  exact List.Pairwise.imp (fun h => Nat.not_lt.2 h) hsorted

/-- A decidable test that implies `NoRepeat`: a digit held by a cell is held by
no other cell of its row, its column or its box. -/
theorem NoRepeat_of_check (b : Grid)
    (h : ∀ i j i2 j2 : Fin 9, (i = i2 ∨ j = j2 ∨ inBox i j i2 j2) →
      1 ≤ b i j → b i j ≤ 9 → b i2 j2 = b i j → i2 = i ∧ j2 = j) : NoRepeat b := by
  intro d hd1 hd9
  refine ⟨?_, ?_, ?_⟩
  · intro i j j2 e1 e2
    exact ((h i j i j2 (Or.inl rfl) (by omega) (by omega) (by rw [e1, e2])).2).symm
  · intro i i2 j e1 e2
    exact ((h i j i2 j (Or.inr (Or.inl rfl)) (by omega) (by omega) (by rw [e1, e2])).1).symm
  · intro r c i j i2 j2 b1 b2 e1 e2
    have := h i j i2 j2 (Or.inr (Or.inr (inBox_shift r c i j i2 j2 b1 b2))) (by omega)
      (by omega) (by rw [e1, e2])
    exact ⟨this.1.symm, this.2.symm⟩

theorem pattern_valid : Valid pattern :=
  Valid_of_full pattern (by decide) (by decide) (NoRepeat_of_check pattern (by decide))

/-- Claim C1: on a grid with entries in `0 .. 9` in which no digit `1 .. 9` occurs
twice in a row, column or box, whenever `Solve` returns `(true, nil)`, directly
or at the end of the driver loop of `main`, the resulting grid has no empty cell
and every row, column and box holds each digit `1 .. 9` exactly once. -/
theorem solved_grid_is_valid (srt : List Cell → List Cell) (hsrt : IsSliceSort srt)
    (b : Grid) (hr : InRange b) (hn : NoRepeat b) :
    (∀ fuel b2, Solve srt fuel b = Run.done b2 true none → Valid b2) ∧
    (∀ fuel b2, main srt fuel b = Run.done b2 true none → Valid b2) := by
  have h9 : ∀ i j, b i j ≤ 9 := fun i j => (hr i j).2
  constructor
  · intro fuel b2 h
    obtain ⟨hfull, hreach⟩ := ((Solve_spec srt hsrt fuel b).2.2 b2 true none h).2.1 rfl rfl
    obtain ⟨hn2, h92⟩ := hreach.noRepeat hn h9
    exact Valid_of_full b2 hfull h92 hn2
  · intro fuel b2 h
    obtain ⟨hreach, hcase⟩ := (main_spec srt hsrt fuel b).2.2 b2 true none h
    rcases hcase with ⟨x, hx, _⟩ | ⟨_, _, hfull⟩
    · cases hx
    · obtain ⟨hn2, h92⟩ := hreach.noRepeat hn h9
      exact Valid_of_full b2 hfull h92 hn2

/-- Witness of C1: the driver fills the one hole of `holed` and ends solved. -/
theorem solved_grid_is_valid_witness :
    IsSliceSort insertionSlice ∧ InRange holed ∧ NoRepeat holed ∧
    main insertionSlice 2 holed = Run.done (setCell holed 0 0 1) true none ∧
    Valid (setCell holed 0 0 1) :=
  ⟨insertionSlice_isSliceSort, by decide, NoRepeat_of_check holed (by decide), rfl,
    (solved_grid_is_valid insertionSlice insertionSlice_isSliceSort holed (by decide)
      (NoRepeat_of_check holed (by decide))).2 2 _ rfl⟩

/-- Claim C2, refuted as stated: on the full grid of ones (entries in range, digits
repeated), and on a solved grid whose top-left entry is replaced by `10` (no
digit repeated, one entry out of range), `Solve` returns `(true, nil)` at once
although the grid is no valid solution. -/
theorem solve_true_on_invalid_grid :
    (InRange allOnes ∧
      Solve insertionSlice 1 allOnes = Run.done allOnes true none ∧ ¬ Valid allOnes) ∧
    (NoRepeat withTen ∧
      Solve insertionSlice 1 withTen = Run.done withTen true none ∧ ¬ Valid withTen) := by
  refine ⟨⟨by decide, rfl, ?_⟩, ⟨NoRepeat_of_check withTen (by decide), rfl, ?_⟩⟩
  · rintro ⟨_, _, hv⟩
    obtain ⟨j, hj, _⟩ := (hv 2 (by decide) (by decide)).1 0
    simp [allOnes] at hj
  · rintro ⟨_, h9, _⟩
    have := h9 0 0
    simp [withTen, setCell] at this

/-- Claim C2, amended: on a grid whose entries are all at most `9` and in which no
digit `1 .. 9` occurs twice in a row, column or box (entries below `1` count as
empty), whenever `Solve` returns `(true, nil)` every row, column and box of the
resulting grid is exactly the set `1 .. 9`. -/
theorem solve_true_valid_of_consistent (srt : List Cell → List Cell) (hsrt : IsSliceSort srt)
    (fuel : Nat) (b b2 : Grid) (h9 : ∀ i j, b i j ≤ 9) (hn : NoRepeat b)
    (h : Solve srt fuel b = Run.done b2 true none) : Valid b2 := by
  obtain ⟨hfull, hreach⟩ := ((Solve_spec srt hsrt fuel b).2.2 b2 true none h).2.1 rfl rfl
  obtain ⟨hn2, h92⟩ := hreach.noRepeat hn h9
  exact Valid_of_full b2 hfull h92 hn2

/-- Witness of the amended C2 on the solved grid `pattern`. -/
theorem solve_true_valid_of_consistent_witness :
    IsSliceSort insertionSlice ∧ (∀ i j, pattern i j ≤ 9) ∧ NoRepeat pattern ∧
    Solve insertionSlice 1 pattern = Run.done pattern true none ∧ Valid pattern :=
  ⟨insertionSlice_isSliceSort, by decide, NoRepeat_of_check pattern (by decide), rfl,
    solve_true_valid_of_consistent insertionSlice insertionSlice_isSliceSort 1 pattern pattern
      (by decide) (NoRepeat_of_check pattern (by decide)) rfl⟩

/-- Claim C3 (conservation): whatever `Solve`, `Backtrack` or the driver returns,
every cell that held a value of at least `1` before the call holds the same
value after it. -/
theorem filled_cells_are_kept (srt : List Cell → List Cell) (hsrt : IsSliceSort srt)
    (fuel k : Nat) (b b2 : Grid) (s : Bool) (e : Option SolveError) :
    (Solve srt fuel b = Run.done b2 s e → ∀ i j, 1 ≤ b i j → b2 i j = b i j) ∧
    (Backtrack srt (Solve srt fuel) k b = Run.done b2 s e →
      ∀ i j, 1 ≤ b i j → b2 i j = b i j) ∧
    (main srt fuel b = Run.done b2 s e → ∀ i j, 1 ≤ b i j → b2 i j = b i j) := by
  refine ⟨?_, ?_, ?_⟩
  · intro h
    exact ((Solve_spec srt hsrt fuel b).2.2 b2 s e h).reach.keep
  · intro h
    exact (Backtrack_done srt hsrt _ fuel (Solve_spec srt hsrt fuel) k b b2 s e h).to_reach.keep
  · intro h
    exact ((main_spec srt hsrt fuel b).2.2 b2 s e h).1.keep

/-- Witness of C3: the given `2` at row 0, column 1 of `holed` survives the call. -/
theorem filled_cells_are_kept_witness :
    IsSliceSort insertionSlice ∧
    Solve insertionSlice 1 holed = Run.done (setCell holed 0 0 1) false none ∧
    setCell holed 0 0 1 0 1 = holed 0 1 :=
  ⟨insertionSlice_isSliceSort, rfl,
    (filled_cells_are_kept insertionSlice insertionSlice_isSliceSort 1 0 holed
      (setCell holed 0 0 1) false none).1 rfl 0 1 (by decide)⟩

/-- Claim C4 (candidate correctness): `Solutions` is strictly ascending and holds
exactly the digits `1 .. 9` that occur neither in the row, nor in the column,
nor in the box of the cell; it is the only such list, and it is empty exactly
when no digit is legal. -/
theorem Solutions_exact (b : Grid) (r c : Fin 9) :
    (Solutions b r c).Pairwise (fun x y => x < y) ∧
    (∀ d, d ∈ Solutions b r c ↔
      1 ≤ d ∧ d ≤ 9 ∧ (∀ j, b r j ≠ d) ∧ (∀ i, b i c ≠ d) ∧
        (∀ i j, inBox r c i j → b i j ≠ d)) ∧
    (∀ l : List Int, l.Pairwise (fun x y => x < y) →
      (∀ d, d ∈ l ↔ Legal b r c d) → l = Solutions b r c) ∧
    (Solutions b r c = [] ↔ ∀ d, ¬ Legal b r c d) := by
  refine ⟨Solutions_ascending b r c, fun d => mem_Solutions b r c d, ?_, ?_⟩
  · intro l hl hmem
    have hs := Solutions_ascending b r c
    have hperm : l.Perm (Solutions b r c) := by
      rw [List.perm_ext_iff_of_nodup (hl.imp (fun h => ne_of_lt h))
        (hs.imp (fun h => ne_of_lt h))]
      intro d
      rw [hmem d, mem_Solutions]
    exact List.eq_of_perm_of_sorted hperm hl hs
  · rw [List.eq_nil_iff_forall_not_mem]
    exact forall_congr' (fun d => not_congr (mem_Solutions b r c d))

/-- Claim C5 (completeness): if the puzzle has a valid completion, the driver loop
ends with `solved = true` as soon as the fuel exceeds the number of empty cells,
and it never ends with an error; so an error at the top level implies that the
puzzle has no valid completion. (Entries outside `0 .. 9` rule out a completion,
so the range of the entries needs no separate hypothesis.) -/
theorem completable_puzzle_is_solved (srt : List Cell → List Cell) (hsrt : IsSliceSort srt)
    (b : Grid) :
    (∀ g, Completion b g → ∀ fuel, emptyCount b < fuel →
      ∃ b2, main srt fuel b = Run.done b2 true none) ∧
    (∀ fuel b2 s x, main srt fuel b = Run.done b2 s (some x) → ¬ ∃ g, Completion b g) := by
  constructor
  · intro g hg fuel hfuel
    rcases main_complete srt hsrt fuel b g hg.extends with h | h
    · have := (main_spec srt hsrt fuel b).1 h
      omega
    · exact h
  · rintro fuel b2 s x h ⟨g, hg⟩
    rcases main_complete srt hsrt fuel b g hg.extends with h2 | ⟨b3, h2⟩
    · rw [h2] at h; cases h
    · rw [h2] at h
      simp only [Run.done.injEq] at h
      cases h.2.2

theorem holed_completion : Completion holed pattern :=
  ⟨pattern_valid, by decide⟩

/-- Witness of C5 on `holed`, which `pattern` completes. -/
theorem completable_puzzle_is_solved_witness :
    IsSliceSort insertionSlice ∧ Completion holed pattern ∧ emptyCount holed < 2 ∧
    ∃ b2, main insertionSlice 2 holed = Run.done b2 true none :=
  ⟨insertionSlice_isSliceSort, holed_completion, by decide,
    (completable_puzzle_is_solved insertionSlice insertionSlice_isSliceSort holed).1 pattern
      holed_completion 2 (by decide)⟩

/-- Claim C6 (end to end): if `B` is the one valid completion of the puzzle, the
driver loop ends with `solved = true` and the grid equal to `B`, as soon as the
fuel exceeds the number of empty cells. -/
theorem unique_completion_is_found (srt : List Cell → List Cell) (hsrt : IsSliceSort srt)
    (b B : Grid) (hB : Completion b B) (huniq : ∀ g, Completion b g → g = B)
    (fuel : Nat) (hfuel : emptyCount b < fuel) :
    main srt fuel b = Run.done B true none := by
  have hext := hB.extends
  rcases main_complete srt hsrt fuel b B hext with h | ⟨b2, h⟩
  · have := (main_spec srt hsrt fuel b).1 h
    omega
  · obtain ⟨hreach, hcase⟩ := (main_spec srt hsrt fuel b).2.2 b2 true none h
    have hfull : Full b2 := by
      rcases hcase with ⟨x, hx, _⟩ | ⟨_, _, hf⟩
      · cases hx
      · exact hf
    have h9 : ∀ i j, b i j ≤ 9 := by
      intro i j
      by_cases h1 : 1 ≤ b i j
      · rw [← hext.2 i j h1]; exact hext.1.2.1 i j
      · omega
    obtain ⟨hn2, h92⟩ := hreach.noRepeat hext.puzzle_noRepeat h9
    have hv : Valid b2 := Valid_of_full b2 hfull h92 hn2
    have hc : Completion b b2 := by
      refine ⟨hv, ?_⟩
      intro i j hne
      have h1 : 1 ≤ b i j := by
        have := hB.2 i j hne
        have := hB.1.1 i j
        omega
      exact hreach.keep i j h1
    rw [h, huniq b2 hc]

theorem holed_unique (g : Grid) (hg : Completion holed g) : g = pattern := by
  obtain ⟨hv, hag⟩ := hg
  have hother : ∀ i j : Fin 9, ¬ (i = 0 ∧ j = 0) → holed i j ≠ 0 ∧ holed i j = pattern i j := by
    decide
  have hrow : ∀ j : Fin 9, j ≠ 0 → pattern 0 j ≠ 1 := by decide
  funext i j
  by_cases h : i = 0 ∧ j = 0
  · obtain ⟨rfl, rfl⟩ := h
    obtain ⟨j, hj, _⟩ := (hv.2.2 1 (by decide) (by decide)).1 0
    by_cases hj0 : j = 0
    · rw [hj0] at hj
      rw [hj]; rfl
    · have h2 := hother 0 j (fun hh => hj0 hh.2)
      rw [hag 0 j h2.1, h2.2] at hj
      exact absurd hj (hrow j hj0)
  · have h2 := hother i j h
    rw [hag i j h2.1, h2.2]

/-- Witness of C6: `pattern` is the only completion of `holed`, and the driver
returns it. -/
theorem unique_completion_is_found_witness :
    IsSliceSort insertionSlice ∧ Completion holed pattern ∧
    (∀ g, Completion holed g → g = pattern) ∧ emptyCount holed < 2 ∧
    main insertionSlice 2 holed = Run.done pattern true none :=
  ⟨insertionSlice_isSliceSort, holed_completion, holed_unique, by decide,
    unique_completion_is_found insertionSlice insertionSlice_isSliceSort holed pattern
      holed_completion holed_unique 2 (by decide)⟩

theorem Before_total (p q : Fin 9 × Fin 9) : Before p q ∨ p = q ∨ Before q p := by
  obtain ⟨a, b⟩ := p
  obtain ⟨c, d⟩ := q
  simp only [Before, Prod.mk.injEq, Fin.lt_def, Fin.ext_iff]
  omega

/-- Claim C7 (atomicity on error): whenever `Solve` or `Backtrack` returns an
error the grid is cell for cell what it was before the call; and when the inner
loop of `Backtrack` ends a candidate without success, the grid equals the
snapshot taken before that guess. -/
theorem error_restores_grid (srt : List Cell → List Cell) (hsrt : IsSliceSort srt)
    (fuel k : Nat) (b b2 : Grid) (s : Bool) (x : SolveError) :
    (Solve srt fuel b = Run.done b2 s (some x) → b2 = b) ∧
    (Backtrack srt (Solve srt fuel) k b = Run.done b2 s (some x) → b2 = b) ∧
    (∀ (r c : Fin 9) (d : Int) (e : Option SolveError),
      solveLoop (Solve srt fuel) b k (setCell b r c d) = Run.done b2 false e → b2 = b) := by
  have hs := Solve_spec srt hsrt fuel
  refine ⟨?_, ?_, ?_⟩
  · intro h
    exact (((hs b).2.2 b2 s (some x) h).1 x rfl).2
  · intro h
    rcases Backtrack_done srt hsrt _ fuel hs k b b2 s (some x) h with ⟨_, _, hb⟩ | ⟨_, hx, _⟩
    · exact hb
    · cases hx
  · intro r c d e h
    rcases (solveLoop_spec _ fuel hs b k (setCell b r c d)).2.2 b2 false e h with
      ⟨_, _, _, hb⟩ | ⟨_, hx, _⟩
    · exact hb
    · cases hx

/-- Witness of C7: `Solve` reports the dead cell of `dead` and leaves the grid;
`Backtrack` on `dead` picks that cell, has no digit to try and leaves the grid;
and after the wrong guess `2` in the first cell of `pair` the inner loop hits a
dead cell and restores the snapshot. -/
theorem error_restores_grid_witness :
    IsSliceSort insertionSlice ∧
    Solve insertionSlice 1 dead = Run.done dead false (some (SolveError.noSolutions 0 0)) ∧
    Backtrack insertionSlice (Solve insertionSlice 0) 0 dead =
      Run.done dead false (some SolveError.notSolved) ∧
    solveLoop (Solve insertionSlice 1) pair 1 (setCell pair 0 0 2) =
      Run.done (revert (setCell pair 0 0 2) pair) false (some (SolveError.noSolutions 0 1)) ∧
    revert (setCell pair 0 0 2) pair = pair :=
  ⟨insertionSlice_isSliceSort, rfl, rfl, rfl,
    (error_restores_grid insertionSlice insertionSlice_isSliceSort 1 1 pair
      (revert (setCell pair 0 0 2) pair) false (SolveError.noSolutions 0 1)).2.2 0 0 2
      (some (SolveError.noSolutions 0 1)) rfl⟩

/-- Claim C8, refuted as stated: in `trap` the last cell is empty and has no
candidate, yet `Solve` places the forced `1` in the first cell, changes the grid
and returns `(false, nil)`. -/
theorem dead_cell_not_reported :
    trap 8 8 < 1 ∧ Solutions trap 8 8 = [] ∧
    Solve insertionSlice 1 trap = Run.done (setCell trap 0 0 1) false none ∧
    setCell trap 0 0 1 ≠ trap := by
  refine ⟨by decide, by decide, rfl, ?_⟩
  intro h
  have := congrFun (congrFun h 0) 0
  simp [setCell, trap, holed] at this

/-- Claim C8, amended: on a grid in which some empty cell has no legal digit, a
call of `Solve` never reports success and never reaches `Backtrack`: it returns
either the zero-candidate error of an empty cell without candidates, the grid
unchanged, or `(false, nil)` after placing the single candidate of an empty cell
that comes before that cell in row-major order. -/
theorem dead_cell_error_or_earlier_single (srt : List Cell → List Cell) (fuel : Nat)
    (b : Grid) (r c : Fin 9) (he : b r c < 1) (h0 : Solutions b r c = []) :
    (∃ i j, b i j < 1 ∧ Solutions b i j = [] ∧
      Solve srt (fuel + 1) b = Run.done b false (some (SolveError.noSolutions i j))) ∨
    (∃ i j d, b i j < 1 ∧ Solutions b i j = [d] ∧ Before (i, j) (r, c) ∧
      Solve srt (fuel + 1) b = Run.done (setCell b i j d) false none) := by
  have hforced : Forced b (r, c) := ⟨he, by simp [h0]⟩
  have hsome : firstForced b rowMajor ≠ none := by
    intro h
    exact (firstForced_none b rowMajor).1 h (r, c) (mem_rowMajor _) hforced
  rcases Solve_cases srt fuel b with ⟨p, hff, hp0, hS⟩ | ⟨p, d, hff, hp1, hS⟩ | ⟨hff, _⟩ |
    ⟨hff, _⟩
  · left
    exact ⟨p.1, p.2, ((firstForced_rowMajor_iff b p).1 hff).1.1, hp0, hS⟩
  · right
    obtain ⟨hp, hmin⟩ := (firstForced_rowMajor_iff b p).1 hff
    refine ⟨p.1, p.2, d, hp.1, hp1, ?_, hS⟩
    rcases Before_total p (r, c) with h | h | h
    · exact h
    · rw [h] at hp1
      simp only [h0] at hp1
      cases hp1
    · exact absurd hforced (hmin (r, c) h)
  · exact absurd hff hsome
  · exact absurd hff hsome

/-- Witness of the amended C8 on `dead`, whose first empty cell has no candidate. -/
theorem dead_cell_error_or_earlier_single_witness :
    dead 0 0 < 1 ∧ Solutions dead 0 0 = [] ∧
    ((∃ i j, dead i j < 1 ∧ Solutions dead i j = [] ∧
      Solve insertionSlice 1 dead =
        Run.done dead false (some (SolveError.noSolutions i j))) ∨
    (∃ i j d, dead i j < 1 ∧ Solutions dead i j = [d] ∧ Before (i, j) (0, 0) ∧
      Solve insertionSlice 1 dead = Run.done (setCell dead i j d) false none)) :=
  ⟨by decide, by decide,
    dead_cell_error_or_earlier_single insertionSlice 0 dead 0 0 (by decide) (by decide)⟩

/-- Claim C9 (single forced placement): if `(i, j)` is the first empty cell in
row-major order with exactly one candidate `d`, and no empty cell before it has
zero candidates, then `Solve` writes `d` to `(i, j)`, changes no other cell and
returns `(false, nil)`, whether or not other empty cells remain. -/
theorem single_forced_placement (srt : List Cell → List Cell) (fuel : Nat) (b : Grid)
    (i j : Fin 9) (d : Int) (he : b i j < 1) (h1 : Solutions b i j = [d])
    (hfirst : ∀ q : Fin 9 × Fin 9, Before q (i, j) → b q.1 q.2 < 1 →
      (Solutions b q.1 q.2).length ≠ 1 ∧ (Solutions b q.1 q.2).length ≠ 0) :
    ∃ b2, Solve srt (fuel + 1) b = Run.done b2 false none ∧ b2 i j = d ∧
      ∀ r c, ¬ (r = i ∧ c = j) → b2 r c = b r c := by
  have hff : firstForced b rowMajor = some (i, j) := by
    rw [firstForced_rowMajor_iff]
    refine ⟨⟨he, by simp [h1]⟩, ?_⟩
    rintro q hq ⟨hqe, hql⟩
    have := hfirst q hq hqe
    omega
  rcases Solve_cases srt fuel b with ⟨p, hp, hp0, _⟩ | ⟨p, d2, hp, hp1, hS⟩ | ⟨hp, _⟩ | ⟨hp, _⟩
  · rw [hff, Option.some.injEq] at hp
    subst hp
    rw [h1] at hp0
    cases hp0
  · rw [hff, Option.some.injEq] at hp
    subst hp
    rw [h1, List.cons.injEq] at hp1
    rw [← hp1.1] at hS
    exact ⟨_, hS, setCell_same b i j d, fun r c h => setCell_other b i j r c d h⟩
  · rw [hff] at hp; cases hp
  · rw [hff] at hp; cases hp

/-- Witness of C9 on `holed`: the placement fills the last empty cell and the
call still returns `(false, nil)`. -/
theorem single_forced_placement_witness :
    holed 0 0 < 1 ∧ Solutions holed 0 0 = [1] ∧ emptyCount holed = 1 ∧
    ∃ b2, Solve insertionSlice 1 holed = Run.done b2 false none ∧ b2 0 0 = 1 ∧
      ∀ r c, ¬ (r = 0 ∧ c = 0) → b2 r c = holed r c :=
  ⟨by decide, by decide, by decide,
    single_forced_placement insertionSlice 0 holed 0 0 1 (by decide) (by decide) (by decide)⟩

/-- Claim C10: if the first empty cell in row-major order that has fewer than two
candidates has none, `Solve` returns `(false, err)` with the zero-candidate
error naming that cell and the grid unchanged; the scan returns this whatever
`Backtrack` would do, so `Backtrack` is not entered. -/
theorem first_dead_cell_is_reported (b : Grid) (i j : Fin 9) (he : b i j < 1)
    (h0 : Solutions b i j = [])
    (hfirst : ∀ q : Fin 9 × Fin 9, Before q (i, j) → b q.1 q.2 < 1 →
      2 ≤ (Solutions b q.1 q.2).length) :
    (∀ backtrack : Grid → Run, solveFrom backtrack b rowMajor true =
      Run.done b false (some (SolveError.noSolutions i j))) ∧
    (∀ (srt : List Cell → List Cell) (fuel : Nat), Solve srt (fuel + 1) b =
      Run.done b false (some (SolveError.noSolutions i j))) := by
  have hff : firstForced b rowMajor = some (i, j) := by
    rw [firstForced_rowMajor_iff]
    refine ⟨⟨he, by simp [h0]⟩, ?_⟩
    rintro q hq ⟨hqe, hql⟩
    have := hfirst q hq hqe
    omega
  have hscan : ∀ backtrack : Grid → Run, solveFrom backtrack b rowMajor true =
      Run.done b false (some (SolveError.noSolutions i j)) := by
    intro backtrack
    rw [solveFrom_eq]
    simp only [scanResult, hff, h0]
  exact ⟨hscan, fun srt fuel => hscan _⟩

/-- Witness of C10 on `dead`. -/
theorem first_dead_cell_is_reported_witness :
    dead 0 0 < 1 ∧ Solutions dead 0 0 = [] ∧
    Solve insertionSlice 1 dead = Run.done dead false (some (SolveError.noSolutions 0 0)) :=
  ⟨by decide, by decide,
    (first_dead_cell_is_reported dead 0 0 (by decide) (by decide) (by decide)).2
      insertionSlice 0⟩

theorem Solve_full (srt : List Cell → List Cell) (fuel : Nat) (b : Grid) (hf : Full b) :
    Solve srt (fuel + 1) b = Run.done b true none := by
  rcases Solve_cases srt fuel b with ⟨p, hff, _, _⟩ | ⟨p, d, hff, _, _⟩ | ⟨_, _, hS⟩ |
    ⟨_, ⟨r, c, he⟩, _⟩
  · obtain ⟨_, _, _, hp, _⟩ := firstForced_some b rowMajor p hff
    have := hf p.1 p.2
    have := hp.1
    omega
  · obtain ⟨_, _, _, hp, _⟩ := firstForced_some b rowMajor p hff
    have := hf p.1 p.2
    have := hp.1
    omega
  · exact hS
  · have := hf r c
    omega

/-- Claim C11: on a grid without an empty cell `Solve` returns `(true, nil)` and
leaves the grid unchanged; and whenever `Solve` returns `(true, nil)` the grid
after the call has no empty cell. -/
theorem full_grid_iff_solved (srt : List Cell → List Cell) (hsrt : IsSliceSort srt)
    (b : Grid) :
    (Full b → ∀ fuel, Solve srt (fuel + 1) b = Run.done b true none) ∧
    (∀ fuel b2, Solve srt fuel b = Run.done b2 true none → Full b2) := by
  constructor
  · intro hf fuel
    exact Solve_full srt fuel b hf
  · intro fuel b2 h
    exact (((Solve_spec srt hsrt fuel b).2.2 b2 true none h).2.1 rfl rfl).1

/-- Witness of C11 on the solved grid `pattern`. -/
theorem full_grid_iff_solved_witness :
    IsSliceSort insertionSlice ∧ Full pattern ∧
    Solve insertionSlice 1 pattern = Run.done pattern true none :=
  ⟨insertionSlice_isSliceSort, by decide,
    (full_grid_iff_solved insertionSlice insertionSlice_isSliceSort pattern).1 (by decide) 0⟩

/-- Claim C12 (unique-candidate trichotomy): `Solution` returns `(d, nil)` with `d`
in `1 .. 9` exactly when the candidate list is `[d]`; it returns `(0, error)`
exactly when the list is empty; and `(0, nil)` exactly when the list has two or
more members. -/
theorem Solution_trichotomy (b : Grid) (r c : Fin 9) :
    (∀ d : Int, (Solution b r c = (d, none) ∧ 1 ≤ d ∧ d ≤ 9) ↔ Solutions b r c = [d]) ∧
    (Solution b r c = (0, some (SolveError.noSolutions r c)) ↔ Solutions b r c = []) ∧
    ((∃ e, Solution b r c = (0, some e)) ↔ Solutions b r c = []) ∧
    (Solution b r c = (0, none) ↔ 2 ≤ (Solutions b r c).length) := by
  rcases h : Solutions b r c with _ | ⟨x, _ | ⟨y, t⟩⟩
  · refine ⟨?_, ?_, ?_, ?_⟩
    · intro d
      simp [Solution, h]
    · simp [Solution, h]
    · simp [Solution, h]
    · simp [Solution, h]
  · have hx : x ∈ Solutions b r c := by simp [h]
    obtain ⟨hx1, hx9, _⟩ := (mem_Solutions b r c x).1 hx
    have hx0 : ¬ x = 0 := by omega
    refine ⟨?_, ?_, ?_, ?_⟩
    · intro d
      simp only [Solution, h, Prod.mk.injEq, and_true, List.cons.injEq]
      constructor
      · rintro ⟨e, _, _⟩; exact e
      · intro e; subst e; exact ⟨rfl, hx1, hx9⟩
    · simp [Solution, h]
    · simp [Solution, h]
    · simp [Solution, h, hx0]
  · refine ⟨?_, ?_, ?_, ?_⟩
    · intro d
      simp only [Solution, h, Prod.mk.injEq, and_true, List.cons.injEq, reduceCtorEq,
        and_false, iff_false, not_and]
      intro e h1
      omega
    · simp [Solution, h]
    · simp [Solution, h]
    · simp [Solution, h]

/-- The first call of `Solve` in `main` and the loop after it are the loop with
one more iteration. -/
theorem main_eq_mainLoop (srt : List Cell → List Cell) (fuel : Nat) (b : Grid) :
    main srt fuel b = mainLoop (Solve srt fuel) (fuel + 1) b false := by
  simp only [main, mainLoop]

/-- A finished run of the driver loop is not changed by a larger iteration bound. -/
theorem mainLoop_mono (solve : Grid → Run) (k m : Nat) (b : Grid) (s0 : Bool) (b2 : Grid)
    (s : Bool) (e : Option SolveError) (h : mainLoop solve k b s0 = Run.done b2 s e) :
    mainLoop solve (k + m) b s0 = Run.done b2 s e := by
  induction k generalizing b s0 with
  | zero =>
    cases s0 with
    | true =>
      simp only [mainLoop] at h
      cases m <;> simpa only [mainLoop, Nat.zero_add] using h
    | false => simp [mainLoop] at h
  | succ k ih =>
    cases s0 with
    | true =>
      simp only [mainLoop] at h
      rw [Nat.add_right_comm]
      simpa only [mainLoop] using h
    | false =>
      rw [Nat.add_right_comm]
      simp only [mainLoop] at h ⊢
      rcases hs : solve b with ⟨b1, s1, e1⟩ | _ | _
      · rw [hs] at h
        cases e1 with
        | some x => simpa only using h
        | none =>
          simp only at h ⊢
          exact ih b1 s1 h
      · rw [hs] at h; simp at h
      · rw [hs] at h; simp at h

/-- Claim C13 (termination): with fuel above the number of empty cells every call
of `Solve` returns; a call that returns `(false, nil)` leaves exactly one empty
cell fewer; and from a grid with `n` empty cells the driver loop, allowed `n + 1`
calls of `Solve`, ends with `solved = true` or an error, which is the result
of `main`. -/
theorem solve_terminates (srt : List Cell → List Cell) (hsrt : IsSliceSort srt) (b : Grid) :
    (∀ fuel, emptyCount b < fuel → ∃ b2 s e, Solve srt fuel b = Run.done b2 s e) ∧
    (∀ fuel b2, Solve srt fuel b = Run.done b2 false none →
      emptyCount b2 + 1 = emptyCount b) ∧
    (∀ fuel, emptyCount b < fuel → ∃ b2 s e,
      mainLoop (Solve srt fuel) (emptyCount b + 1) b false = Run.done b2 s e ∧
      (s = true ∨ e ≠ none) ∧ main srt fuel b = Run.done b2 s e) := by
  refine ⟨?_, ?_, ?_⟩
  · intro fuel hfuel
    obtain ⟨b2, s, e, h, _⟩ := Solve_returns srt hsrt fuel b hfuel
    exact ⟨b2, s, e, h⟩
  · intro fuel b2 h
    obtain ⟨i, j, d, he, hsol, rfl⟩ := ((Solve_spec srt hsrt fuel b).2.2 b2 false none h).2.2
      rfl rfl
    have hd : d ∈ Solutions b i j := by simp [hsol]
    exact emptyCount_setCell b i j d he ((mem_Solutions b i j d).1 hd).1
  · intro fuel hfuel
    obtain ⟨h1, h2, h3⟩ := mainLoop_spec (Solve srt fuel) fuel (Solve_spec srt hsrt fuel)
      (emptyCount b + 1) b false (by simp)
    rcases h : mainLoop (Solve srt fuel) (emptyCount b + 1) b false with ⟨b2, s, e⟩ | _ | _
    · refine ⟨b2, s, e, rfl, ?_, ?_⟩
      · rcases (h3 b2 s e h).2 with ⟨x, hx, _⟩ | ⟨_, hs, _⟩
        · right; rw [hx]; simp
        · left; exact hs
      · rw [main_eq_mainLoop]
        have hk : fuel + 1 = (emptyCount b + 1) + (fuel - emptyCount b) := by omega
        rw [hk]
        exact mainLoop_mono _ _ _ b false b2 s e h
    · exact absurd h h2
    · rcases h1 h with h | h <;> omega

/-- Witness of C13 on `holed`: one empty cell, two calls of `Solve`. -/
theorem solve_terminates_witness :
    IsSliceSort insertionSlice ∧ emptyCount holed = 1 ∧
    ∃ b2 s e, mainLoop (Solve insertionSlice 2) (emptyCount holed + 1) holed false =
        Run.done b2 s e ∧
      (s = true ∨ e ≠ none) ∧ main insertionSlice 2 holed = Run.done b2 s e :=
  ⟨insertionSlice_isSliceSort, by decide,
    (solve_terminates insertionSlice insertionSlice_isSliceSort holed).2.2 2 (by decide)⟩

/-- Claim C14 (minimum remaining values): the unsorted `Options` lists exactly the
empty cells, in row-major order, each with the `Solutions` of its cell; the
sorted `Options` is a permutation of it in non-decreasing number of candidates;
so the head, on which `Backtrack` guesses, has no more candidates than any
other empty cell. The order is the contract of `sort.Slice`. -/
theorem Options_min_remaining (srt : List Cell → List Cell) (hsrt : IsSliceSort srt)
    (b : Grid) :
    ((Options srt b false).map (fun o => (o.row, o.col))).Pairwise Before ∧
    (∀ p : Fin 9 × Fin 9,
      p ∈ (Options srt b false).map (fun o => (o.row, o.col)) ↔ b p.1 p.2 < 1) ∧
    (∀ o ∈ Options srt b false, o.options = Solutions b o.row o.col) ∧
    (Options srt b true).Perm (Options srt b false) ∧
    (Options srt b true).Pairwise (fun x y => x.options.length ≤ y.options.length) ∧
    (∀ o rest, Options srt b true = o :: rest →
      (∀ r c, b r c < 1 → o.options.length ≤ (Solutions b r c).length) ∧
      (∀ solve k, Backtrack srt solve k b = tryOptions solve k o.row o.col b o.options)) := by
  have hpos : (Options srt b false).map (fun o => (o.row, o.col)) =
      rowMajor.filter (fun p => decide (b p.1 p.2 < 1)) := by
    simp only [Options, Bool.false_eq_true, if_false, List.map_map]
    exact List.map_id _
  have hsorted : (Options srt b true).Pairwise
      (fun x y => x.options.length ≤ y.options.length) := by
    simp only [Options, if_true]
    exact (hsrt _).2.imp (fun h => Nat.not_lt.1 h)
  refine ⟨?_, ?_, ?_, Options_true_perm srt hsrt b, hsorted, ?_⟩
  · rw [hpos]
    exact rowMajor_pairwise.sublist (List.filter_sublist _)
  · intro p
    rw [hpos, List.mem_filter, decide_eq_true_eq]
    exact ⟨fun h => h.2, fun h => ⟨mem_rowMajor p, h⟩⟩
  · intro o ho
    exact ((mem_Options_false srt b o).1 ho).2
  · intro o rest ho
    constructor
    · intro r c he
      have hmem : Cell.mk r c (Solutions b r c) ∈ Options srt b true :=
        (mem_Options_true srt hsrt b _).2 ⟨he, rfl⟩
      rw [ho] at hmem hsorted
      rcases List.mem_cons.1 hmem with h | h
      · rw [← h]
      · exact (List.pairwise_cons.1 hsorted).1 _ h
    · intro solve k
      simp only [Backtrack, ho]

/-- Witness of C14 on `pair`, whose two empty cells have one candidate each. -/
theorem Options_min_remaining_witness :
    IsSliceSort insertionSlice ∧
    Options insertionSlice pair true = [Cell.mk 0 0 [1], Cell.mk 0 1 [2]] ∧
    (Options insertionSlice pair true).Pairwise
      (fun x y => x.options.length ≤ y.options.length) :=
  ⟨insertionSlice_isSliceSort, by decide,
    (Options_min_remaining insertionSlice insertionSlice_isSliceSort pair).2.2.2.2.1⟩

theorem tryOptions_error_iff (solve : Grid → Run) (n : Nat) (hs : SolveSpec solve n)
    (k : Nat) (r c : Fin 9) (b : Grid) (opts : List Int) :
    (∃ b2 s x, tryOptions solve k r c b opts = Run.done b2 s (some x)) ↔
      ∀ d ∈ opts, ∃ b3 s e,
        solveLoop solve b k (setCell b r c d) = Run.done b3 s (some e) := by
  induction opts with
  | nil =>
    simp only [tryOptions, List.not_mem_nil, false_implies, implies_true, iff_true]
    exact ⟨b, false, SolveError.notSolved, rfl⟩
  | cons d rest ih =>
    obtain ⟨_, l2, l3⟩ := solveLoop_spec solve n hs b k (setCell b r c d)
    simp only [List.mem_cons, forall_eq_or_imp]
    rcases h : solveLoop solve b k (setCell b r c d) with ⟨b1, s1, e1⟩ | _ | _
    · cases s1 with
      | true =>
        have he1 : e1 = none := by
          rcases l3 _ _ _ h with ⟨_, _, hx, _⟩ | ⟨hx, _⟩
          · cases hx
          · exact hx
        subst he1
        simp only [tryOptions, h]
        constructor
        · rintro ⟨_, _, _, hx⟩; simp at hx
        · rintro ⟨⟨_, _, _, hx⟩, _⟩; simp at hx
      | false =>
        obtain ⟨x, hx, hb1⟩ : ∃ x, e1 = some x ∧ b1 = b := by
          rcases l3 _ _ _ h with ⟨x, hx, _, hb⟩ | ⟨_, hx, _⟩
          · exact ⟨x, hx, hb⟩
          · cases hx
        subst hx hb1
        simp only [tryOptions, h]
        rw [ih]
        constructor
        · intro hall
          exact ⟨⟨b1, false, x, rfl⟩, hall⟩
        · intro hall
          exact hall.2
    · exact absurd h l2
    · simp only [tryOptions, h]
      constructor
      · rintro ⟨_, _, _, hx⟩; simp at hx
      · rintro ⟨⟨_, _, _, hx⟩, _⟩; simp at hx

/-- Claim C17: on a grid with an empty cell `Backtrack` has a chosen cell (the
head of the sorted options) and returns an error exactly when, for every
candidate of that cell, committing the digit and calling `Solve` repeatedly ends
in an error; the error returned is then the exhaustion error, with `solved`
false and the grid as on entry. -/
theorem Backtrack_error_iff (srt : List Cell → List Cell) (hsrt : IsSliceSort srt)
    (fuel k : Nat) (b : Grid) (r c : Fin 9) (he : b r c < 1) :
    ∃ o rest, Options srt b true = o :: rest ∧
      ((∃ b2 s x, Backtrack srt (Solve srt fuel) k b = Run.done b2 s (some x)) ↔
        ∀ d ∈ o.options, ∃ b3 s e, solveLoop (Solve srt fuel) b k
          (setCell b o.row o.col d) = Run.done b3 s (some e)) ∧
      (∀ b2 s x, Backtrack srt (Solve srt fuel) k b = Run.done b2 s (some x) →
        x = SolveError.notSolved ∧ s = false ∧ b2 = b) := by
  rcases ho : Options srt b true with _ | ⟨o, rest⟩
  · exact absurd ho (Options_true_ne_nil srt hsrt b r c he)
  · refine ⟨o, rest, rfl, ?_, ?_⟩
    · have := tryOptions_error_iff (Solve srt fuel) fuel (Solve_spec srt hsrt fuel) k
        o.row o.col b o.options
      simpa only [Backtrack, ho] using this
    · intro b2 s x h
      rcases Backtrack_done srt hsrt _ fuel (Solve_spec srt hsrt fuel) k b b2 s (some x) h with
        ⟨hs, hx, hb⟩ | ⟨_, hx, _⟩
      · simp only [Option.some.injEq] at hx
        exact ⟨hx, hs, hb⟩
      · cases hx

/-- Witness of C17 on `dead`: the chosen cell has no candidate, so `Backtrack`
returns the exhaustion error. -/
theorem Backtrack_error_iff_witness :
    IsSliceSort insertionSlice ∧ dead 0 0 < 1 ∧
    Backtrack insertionSlice (Solve insertionSlice 1) 1 dead =
      Run.done dead false (some SolveError.notSolved) ∧
    ∃ o rest, Options insertionSlice dead true = o :: rest ∧
      ((∃ b2 s x, Backtrack insertionSlice (Solve insertionSlice 1) 1 dead =
          Run.done b2 s (some x)) ↔
        ∀ d ∈ o.options, ∃ b3 s e, solveLoop (Solve insertionSlice 1) dead 1
          (setCell dead o.row o.col d) = Run.done b3 s (some e)) ∧
      (∀ b2 s x, Backtrack insertionSlice (Solve insertionSlice 1) 1 dead =
          Run.done b2 s (some x) →
        x = SolveError.notSolved ∧ s = false ∧ b2 = dead) :=
  ⟨insertionSlice_isSliceSort, by decide, rfl,
    Backtrack_error_iff insertionSlice insertionSlice_isSliceSort 1 1 dead 0 0 (by decide)⟩

/-- The scan of `Solve` reaches `Backtrack` exactly on a board with an empty cell
in which every empty cell has two or more candidates. -/
theorem Solve_stalled (srt : List Cell → List Cell) (fuel : Nat) (b : Grid) (r c : Fin 9)
    (he : b r c < 1) (h2 : ∀ i j, b i j < 1 → 2 ≤ (Solutions b i j).length) :
    Solve srt (fuel + 1) b = Backtrack srt (Solve srt fuel) fuel b := by
  rcases Solve_cases srt fuel b with ⟨p, hff, _, _⟩ | ⟨p, d, hff, _, _⟩ | ⟨_, hfull, _⟩ |
    ⟨_, _, hS⟩
  · obtain ⟨_, _, _, hp, _⟩ := firstForced_some b rowMajor p hff
    have := h2 p.1 p.2 hp.1
    have := hp.2
    omega
  · obtain ⟨_, _, _, hp, _⟩ := firstForced_some b rowMajor p hff
    have := h2 p.1 p.2 hp.1
    have := hp.2
    omega
  · have := hfull r c
    omega
  · exact hS

/-- Claim C18: on a grid with an empty cell in which every empty cell has two or
more candidates, one call of `Solve` returns `(true, nil)` with a full grid or
an error with the grid unchanged, never `(false, nil)`, and the driver loop
started there makes no second call; and on any grid `Solve` returns
`(false, nil)` only by writing the single candidate of one empty cell. -/
theorem stalled_solve_completes (srt : List Cell → List Cell) (hsrt : IsSliceSort srt)
    (b : Grid) (r c : Fin 9) (he : b r c < 1)
    (h2 : ∀ i j, b i j < 1 → 2 ≤ (Solutions b i j).length) :
    (∀ fuel, emptyCount b < fuel →
      ((∃ b2, Solve srt fuel b = Run.done b2 true none ∧ Full b2) ∨
        (∃ x, Solve srt fuel b = Run.done b false (some x))) ∧
      (∀ k, mainLoop (Solve srt fuel) (k + 1) b false = Solve srt fuel b) ∧
      main srt fuel b = Solve srt fuel b) ∧
    (∀ fuel b2, Solve srt fuel b ≠ Run.done b2 false none) ∧
    (∀ fuel (b0 b2 : Grid), Solve srt fuel b0 = Run.done b2 false none →
      ∃ i j d, b0 i j < 1 ∧ Solutions b0 i j = [d] ∧ b2 i j = d ∧
        ∀ i2 j2, ¬ (i2 = i ∧ j2 = j) → b2 i2 j2 = b0 i2 j2) := by
  have hnot : ∀ fuel b2, Solve srt fuel b ≠ Run.done b2 false none := by
    intro fuel b2 h
    cases fuel with
    | zero => simp [Solve] at h
    | succ n =>
      rw [Solve_stalled srt n b r c he h2] at h
      rcases Backtrack_done srt hsrt _ n (Solve_spec srt hsrt n) n b b2 false none h with
        ⟨_, hx, _⟩ | ⟨hx, _⟩
      · cases hx
      · cases hx
  refine ⟨?_, hnot, ?_⟩
  · intro fuel hfuel
    obtain ⟨b2, s, e, h, hpost⟩ := Solve_returns srt hsrt fuel b hfuel
    have hcase : (∃ b2, Solve srt fuel b = Run.done b2 true none ∧ Full b2) ∨
        (∃ x, Solve srt fuel b = Run.done b false (some x)) := by
      cases e with
      | some x =>
        obtain ⟨hs, hb⟩ := hpost.1 x rfl
        subst hs hb
        exact Or.inr ⟨x, h⟩
      | none =>
        cases s with
        | true => exact Or.inl ⟨b2, h, (hpost.2.1 rfl rfl).1⟩
        | false => exact absurd h (hnot fuel b2)
    have hloop : ∀ k, mainLoop (Solve srt fuel) (k + 1) b false = Solve srt fuel b := by
      intro k
      rcases hcase with ⟨b3, h3, _⟩ | ⟨x, h3⟩
      · simp only [mainLoop, h3]
      · simp only [mainLoop, h3]
    exact ⟨hcase, hloop, by rw [main_eq_mainLoop]; exact hloop fuel⟩
  · intro fuel b0 b2 h
    obtain ⟨i, j, d, hemp, hsol, rfl⟩ :=
      ((Solve_spec srt hsrt fuel b0).2.2 b2 false none h).2.2 rfl rfl
    exact ⟨i, j, d, hemp, hsol, setCell_same b0 i j d,
      fun i2 j2 hne => setCell_other b0 i j i2 j2 d hne⟩

/-- Witness of C18 on `twoDigits`, where every empty cell has two candidates. -/
theorem stalled_solve_completes_witness :
    IsSliceSort insertionSlice ∧ twoDigits 0 0 < 1 ∧
    (∀ i j, twoDigits i j < 1 → 2 ≤ (Solutions twoDigits i j).length) ∧
    (∀ fuel b2, Solve insertionSlice fuel twoDigits ≠ Run.done b2 false none) :=
  ⟨insertionSlice_isSliceSort, by decide, by decide,
    (stalled_solve_completes insertionSlice insertionSlice_isSliceSort twoDigits 0 0
      (by decide) (by decide)).2.1⟩

theorem Stalled_of_scan (b : Grid) (hff : firstForced b rowMajor = none)
    (hne : ∃ r c, b r c < 1) : Stalled b := by
  refine ⟨hne, ?_⟩
  intro r c he
  have := (firstForced_none b rowMajor).1 hff (r, c) (mem_rowMajor _)
  unfold Forced at this
  simp only [not_and, not_lt] at this
  exact this he

theorem SolveChecked_eq (srt : List Cell → List Cell) (fuel : Nat) (b : Grid) :
    SolveChecked srt fuel b = Solve srt fuel b := by
  induction fuel generalizing b with
  | zero => rfl
  | succ n ih =>
    have hfun : SolveChecked srt n = Solve srt n := funext ih
    rw [SolveChecked, Solve, solveFrom_eq, solveFrom_eq, hfun]
    unfold scanResult
    rcases hff : firstForced b rowMajor with _ | p
    · by_cases hfull : ∀ q ∈ rowMajor, 1 ≤ b q.1 q.2
      · simp only [true_and, if_pos hfull]
      · have hne : ∃ r c, b r c < 1 := by
          by_contra hcon
          apply hfull
          intro q _
          by_contra hq
          exact hcon ⟨q.1, q.2, by omega⟩
        have hst := Stalled_of_scan b hff hne
        simp only [true_and, if_neg hfull, BacktrackChecked, if_pos hst]
    · rfl

/-- Claim C19 (safety of the guess step): asserting the precondition at every call
of `Backtrack`, nested ones included, changes no run of `Solve`, and no run of
`Solve` or of the driver ends in the index fault; on a board that meets the
precondition `options[0]` exists, is an empty cell and has two or more
candidates; and the box indices `r3 + k` of `Solutions` stay within `0 .. 8`. -/
theorem Backtrack_calls_are_safe (srt : List Cell → List Cell) (hsrt : IsSliceSort srt) :
    (∀ fuel b, SolveChecked srt fuel b = Solve srt fuel b) ∧
    (∀ fuel b, Solve srt fuel b ≠ Run.indexPanic) ∧
    (∀ fuel b, main srt fuel b ≠ Run.indexPanic) ∧
    (∀ b, Stalled b → ∃ o rest, Options srt b true = o :: rest ∧
      b o.row o.col < 1 ∧ 2 ≤ o.options.length) ∧
    (∀ (r : Fin 9) (k : Fin 3),
      (boxIndex r k).val = 3 * (r.val / 3) + k.val ∧ (boxIndex r k).val ≤ 8) := by
  refine ⟨SolveChecked_eq srt, fun fuel b => (Solve_spec srt hsrt fuel b).2.1,
    fun fuel b => (main_spec srt hsrt fuel b).2.1, ?_, ?_⟩
  · rintro b ⟨⟨r, c, he⟩, h2⟩
    rcases ho : Options srt b true with _ | ⟨o, rest⟩
    · exact absurd ho (Options_true_ne_nil srt hsrt b r c he)
    · have hmem : o ∈ Options srt b true := by rw [ho]; exact List.mem_cons_self _ _
      obtain ⟨hoe, hoo⟩ := (mem_Options_true srt hsrt b o).1 hmem
      refine ⟨o, rest, rfl, hoe, ?_⟩
      rw [hoo]
      exact h2 _ _ hoe
  · intro r k
    have := (boxIndex r k).isLt
    exact ⟨rfl, by omega⟩

/-- Witness of C19: on `twoDigits` the scan stalls and `Backtrack` is entered
with its precondition met. -/
theorem Backtrack_calls_are_safe_witness :
    IsSliceSort insertionSlice ∧ Stalled twoDigits ∧
    (∀ fuel b, SolveChecked insertionSlice fuel b = Solve insertionSlice fuel b) :=
  ⟨insertionSlice_isSliceSort, by decide,
    (Backtrack_calls_are_safe insertionSlice insertionSlice_isSliceSort).1⟩

/-- Filling an empty cell adds no candidate anywhere. -/
theorem Legal_of_setCell (b : Grid) (i j : Fin 9) (d : Int) (r c : Fin 9) (x : Int)
    (he : b i j < 1) (h : Legal (setCell b i j d) r c x) : Legal b r c x := by
  obtain ⟨h1, h9, hr, hc, hb⟩ := h
  have key : ∀ i2 j2, setCell b i j d i2 j2 ≠ x → b i2 j2 ≠ x := by
    intro i2 j2 hne e
    by_cases hh : i2 = i ∧ j2 = j
    · obtain ⟨rfl, rfl⟩ := hh
      omega
    · rw [setCell_other b i j i2 j2 d hh] at hne
      exact hne e
  exact ⟨h1, h9, fun j2 => key r j2 (hr j2), fun i2 => key i2 c (hc i2),
    fun i2 j2 hbox => key i2 j2 (hb i2 j2 hbox)⟩

/-- A dead cell stays dead when another cell is filled. -/
theorem dead_cell_persists (b : Grid) (i j : Fin 9) (d : Int) (r c : Fin 9)
    (he : b i j < 1) (hne : ¬ (r = i ∧ c = j)) (hrc : b r c < 1)
    (h0 : Solutions b r c = []) :
    setCell b i j d r c < 1 ∧ Solutions (setCell b i j d) r c = [] := by
  refine ⟨by rw [setCell_other b i j r c d hne]; exact hrc, ?_⟩
  rw [List.eq_nil_iff_forall_not_mem] at h0 ⊢
  intro x hx
  exact h0 x ((mem_Solutions b r c x).2
    (Legal_of_setCell b i j d r c x he ((mem_Solutions _ r c x).1 hx)))

/-- On a board with a dead cell the scan of `Solve` reports a dead cell or places
a forced digit, whatever `Backtrack` is. -/
theorem dead_scan (b : Grid) (r c : Fin 9) (he : b r c < 1) (h0 : Solutions b r c = []) :
    (∃ i j, b i j < 1 ∧ Solutions b i j = [] ∧ ∀ bt : Grid → Run,
      solveFrom bt b rowMajor true = Run.done b false (some (SolveError.noSolutions i j))) ∨
    (∃ i j d, b i j < 1 ∧ Solutions b i j = [d] ∧ ∀ bt : Grid → Run,
      solveFrom bt b rowMajor true = Run.done (setCell b i j d) false none) := by
  have hforced : Forced b (r, c) := ⟨he, by simp [h0]⟩
  rcases hff : firstForced b rowMajor with _ | p
  · exact absurd hforced ((firstForced_none b rowMajor).1 hff (r, c) (mem_rowMajor _))
  · obtain ⟨_, _, _, hp, _⟩ := firstForced_some b rowMajor p hff
    rcases Forced_cases b p hp with hp0 | ⟨d, hp1⟩
    · left
      refine ⟨p.1, p.2, hp.1, hp0, fun bt => ?_⟩
      rw [solveFrom_eq]
      simp only [scanResult, hff, hp0]
    · right
      refine ⟨p.1, p.2, d, hp.1, hp1, fun bt => ?_⟩
      rw [solveFrom_eq]
      simp only [scanResult, hff, hp1]

theorem dead_loop (k : Nat) (b : Grid) (r c : Fin 9) (he : b r c < 1)
    (h0 : Solutions b r c = []) :
    (k < emptyCount b ∧ ∀ bt : Grid → Run,
      mainLoop (fun x => solveFrom bt x rowMajor true) k b false = Run.outOfFuel) ∨
    (∃ b2 i j, b2 i j < 1 ∧ Solutions b2 i j = [] ∧ Reach b b2 ∧ ∀ bt : Grid → Run,
      mainLoop (fun x => solveFrom bt x rowMajor true) k b false =
        Run.done b2 false (some (SolveError.noSolutions i j))) := by
  induction k generalizing b with
  | zero =>
    left
    exact ⟨emptyCount_pos b r c he, fun bt => rfl⟩
  | succ k ih =>
    rcases dead_scan b r c he h0 with ⟨i, j, hie, hi0, hscan⟩ | ⟨i, j, d, hie, hi1, hscan⟩
    · right
      refine ⟨b, i, j, hie, hi0, Reach.refl _, fun bt => ?_⟩
      simp only [mainLoop, hscan bt]
    · have hd : d ∈ Solutions b i j := by simp [hi1]
      have hne : ¬ (r = i ∧ c = j) := by
        rintro ⟨rfl, rfl⟩
        rw [h0] at hi1
        cases hi1
      obtain ⟨he2, h02⟩ := dead_cell_persists b i j d r c hie hne he h0
      have hcount := emptyCount_setCell b i j d hie ((mem_Solutions b i j d).1 hd).1
      rcases ih (setCell b i j d) he2 h02 with ⟨hk, hloop⟩ | ⟨b2, i2, j2, h1, h2, h3, hloop⟩
      · left
        refine ⟨by omega, fun bt => ?_⟩
        simp only [mainLoop, hscan bt]
        exact hloop bt
      · right
        refine ⟨b2, i2, j2, h1, h2, Reach.step i j d hie hd h3, fun bt => ?_⟩
        simp only [mainLoop, hscan bt]
        exact hloop bt

/-- Claim C20: on a grid in which some empty cell has no candidate the driver loop
never returns `solved = true`; with fuel for its placements it ends with the
zero-candidate error of a dead cell, on a grid reached by legal placements; and
the same run results whatever `Backtrack` does, so `Backtrack` is not entered
at the top level. -/
theorem dead_cell_ends_in_error (srt : List Cell → List Cell) (b : Grid) (r c : Fin 9)
    (he : b r c < 1) (h0 : Solutions b r c = []) :
    (∀ fuel b2 e, main srt fuel b ≠ Run.done b2 true e) ∧
    (∀ fuel, emptyCount b ≤ fuel → ∃ b2 i j,
      b2 i j < 1 ∧ Solutions b2 i j = [] ∧ Reach b b2 ∧
      main srt fuel b = Run.done b2 false (some (SolveError.noSolutions i j)) ∧
      ∀ bt : Grid → Run, mainLoop (fun x => solveFrom bt x rowMajor true) (fuel + 1) b false =
        Run.done b2 false (some (SolveError.noSolutions i j))) := by
  have hmain : ∀ n, main srt (n + 1) b = mainLoop
      (fun x => solveFrom (Backtrack srt (Solve srt n) n) x rowMajor true) (n + 2) b false := by
    intro n
    rw [main_eq_mainLoop]
    rfl
  constructor
  · intro fuel b2 e h
    cases fuel with
    | zero => simp [main, Solve] at h
    | succ n =>
      rw [hmain n] at h
      rcases dead_loop (n + 2) b r c he h0 with ⟨_, hloop⟩ | ⟨_, _, _, _, _, _, hloop⟩
      · rw [hloop] at h; cases h
      · rw [hloop] at h
        simp only [Run.done.injEq] at h
        cases h.2.1
  · intro fuel hfuel
    have hpos := emptyCount_pos b r c he
    cases fuel with
    | zero => omega
    | succ n =>
      rcases dead_loop (n + 2) b r c he h0 with ⟨hk, _⟩ | ⟨b2, i, j, h1, h2, h3, hloop⟩
      · omega
      · refine ⟨b2, i, j, h1, h2, h3, ?_, hloop⟩
        rw [hmain n]
        exact hloop _

/-- Witness of C20 on `trap`: one forced placement, then the error of the dead
last cell. -/
theorem dead_cell_ends_in_error_witness :
    trap 8 8 < 1 ∧ Solutions trap 8 8 = [] ∧
    main insertionSlice 2 trap =
      Run.done (setCell trap 0 0 1) false (some (SolveError.noSolutions 8 8)) ∧
    (∀ fuel b2 e, main insertionSlice fuel trap ≠ Run.done b2 true e) :=
  ⟨by decide, by decide, rfl,
    (dead_cell_ends_in_error insertionSlice trap 8 8 (by decide) (by decide)).1⟩

/-- The row loop of `Board`, when it runs through: every field parsed, the writes
were in range, cells outside the written part of the row are untouched, and
each written cell holds what `atoi` made of its field. -/
theorem fillRow_grid (atoi : List Char → Option Int) (i : Nat) (fields : List (List Char)) :
    ∀ (board : Grid) (j : Nat) (b2 : Grid),
      fillRow atoi i board j fields = BoardRun.grid b2 →
      (∀ f ∈ fields, atoi f ≠ none) ∧
      (fields ≠ [] → i < 9 ∧ j + fields.length ≤ 9) ∧
      (∀ r c : Fin 9, (r.val ≠ i ∨ c.val < j) → b2 r c = board r c) ∧
      (∀ k f, fields[k]? = some f → ∀ r c : Fin 9, r.val = i → c.val = j + k →
        atoi f = some (b2 r c)) := by
  induction fields with
  | nil =>
    intro board j b2 h
    simp only [fillRow, BoardRun.grid.injEq] at h
    subst h
    simp
  | cons f0 rest ih =>
    intro board j b2 h
    rcases hv : atoi f0 with _ | v
    · simp [fillRow, hv] at h
    · by_cases hij : i < 9 ∧ j < 9
      · simp only [fillRow, hv, dif_pos hij] at h
        obtain ⟨h1, h2, h3, h4⟩ := ih _ _ _ h
        refine ⟨?_, ?_, ?_, ?_⟩
        · intro f hf
          rcases List.mem_cons.1 hf with rfl | hf
          · rw [hv]; simp
          · exact h1 f hf
        · intro _
          refine ⟨hij.1, ?_⟩
          by_cases hr : rest = []
          · subst hr
            simp only [List.length_cons, List.length_nil]
            omega
          · have := (h2 hr).2
            simp only [List.length_cons]
            omega
        · intro r c hrc
          rw [h3 r c (by omega)]
          apply setCell_other
          rintro ⟨hr, hc⟩
          rw [hr, hc] at hrc
          simp only [ne_eq, not_true_eq_false, lt_self_iff_false, or_self] at hrc
        · intro k f hk r c hr hc
          cases k with
          | zero =>
            simp only [List.getElem?_cons_zero, Option.some.injEq] at hk
            subst hk
            rw [h3 r c (Or.inr (by omega)), hv]
            have e1 : r = ⟨i, hij.1⟩ := Fin.ext hr
            have e2 : c = ⟨j, hij.2⟩ := Fin.ext (by simpa using hc)
            rw [e1, e2, setCell_same]
          | succ k =>
            simp only [List.getElem?_cons_succ] at hk
            exact h4 k f hk r c hr (by omega)
      · simp [fillRow, hv, dif_neg hij] at h

theorem fillRow_ok (atoi : List Char → Option Int) (i : Nat) (hi : i < 9)
    (fields : List (List Char)) :
    ∀ (board : Grid) (j : Nat), (∀ f ∈ fields, atoi f ≠ none) → j + fields.length ≤ 9 →
      ∃ b2, fillRow atoi i board j fields = BoardRun.grid b2 := by
  induction fields with
  | nil => intro board j _ _; exact ⟨board, rfl⟩
  | cons f0 rest ih =>
    intro board j hp hlen
    simp only [List.length_cons] at hlen
    rcases hv : atoi f0 with _ | v
    · exact absurd hv (hp f0 (List.mem_cons_self _ _))
    · have hij : i < 9 ∧ j < 9 := ⟨hi, by omega⟩
      simp only [fillRow, hv, dif_pos hij]
      exact ih _ (j + 1) (fun f hf => hp f (List.mem_cons_of_mem _ hf)) (by omega)

/-- The row loop of `Board` panics only on a row index beyond the board (the
columns are in range for a row of at most nine fields). -/
theorem fillRow_panic (atoi : List Char → Option Int) (i : Nat) (fields : List (List Char)) :
    ∀ (board : Grid) (j : Nat), j + fields.length ≤ 9 →
      fillRow atoi i board j fields = BoardRun.indexPanic → 9 ≤ i := by
  induction fields with
  | nil => intro board j _ h; simp [fillRow] at h
  | cons f0 rest ih =>
    intro board j hlen h
    simp only [List.length_cons] at hlen
    rcases hv : atoi f0 with _ | v
    · simp [fillRow, hv] at h
    · by_cases hij : i < 9 ∧ j < 9
      · simp only [fillRow, hv, dif_pos hij] at h
        exact ih _ (j + 1) (by omega) h
      · omega

theorem dataLines_cons (line : List Char) (rest : List (List Char)) :
    dataLines (line :: rest) =
      if isDataLine line then line :: dataLines rest else dataLines rest := by
  unfold dataLines
  by_cases h : isDataLine line = true
  · simp [List.filter_cons, h]
  · simp [List.filter_cons, h]

/-- The read loop of `Board`, when it returns a board. -/
theorem boardLines_grid (atoi : List Char → Option Int) (lines : List (List Char)) :
    ∀ (board : Grid) (i : Nat) (g : Grid),
      boardLines atoi board i lines = BoardRun.grid g →
      i + (dataLines lines).length = 9 ∧
      (∀ l ∈ dataLines lines,
        (splitComma l).length = 9 ∧ ∀ f ∈ splitComma l, atoi f ≠ none) ∧
      (∀ r c : Fin 9, r.val < i → g r c = board r c) ∧
      (∀ k l, (dataLines lines)[k]? = some l → ∀ m f, (splitComma l)[m]? = some f →
        ∀ r c : Fin 9, r.val = i + k → c.val = m → atoi f = some (g r c)) := by
  induction lines with
  | nil =>
    intro board i g h
    by_cases hi : i = 9
    · simp only [boardLines, hi, ne_eq, not_true_eq_false, if_false,
        BoardRun.grid.injEq] at h
      subst h
      simp [dataLines, hi]
    · simp [boardLines, hi] at h
  | cons line rest ih =>
    intro board i g h
    by_cases hd : isDataLine line = true
    · by_cases hlen : (splitComma line).length = 9
      · simp only [boardLines, hd, if_true, hlen, ne_eq, not_true_eq_false, if_false] at h
        rcases hrow : fillRow atoi i board 0 (splitComma line) with b1 | e | _
        · rw [hrow] at h
          simp only at h
          obtain ⟨f1, _, f3, f4⟩ := fillRow_grid atoi i (splitComma line) board 0 b1 hrow
          obtain ⟨g1, g2, g3, g4⟩ := ih b1 (i + 1) g h
          rw [dataLines_cons, if_pos hd]
          refine ⟨?_, ?_, ?_, ?_⟩
          · simp only [List.length_cons]; omega
          · intro l hl
            rcases List.mem_cons.1 hl with rfl | hl
            · exact ⟨hlen, f1⟩
            · exact g2 l hl
          · intro r c hr
            rw [g3 r c (by omega), f3 r c (Or.inl (by omega))]
          · intro k l hk m f hm r c hr hc
            cases k with
            | zero =>
              simp only [List.getElem?_cons_zero, Option.some.injEq] at hk
              subst hk
              rw [g3 r c (by omega)]
              exact f4 m f hm r c (by omega) (by omega)
            | succ k =>
              simp only [List.getElem?_cons_succ] at hk
              exact g4 k l hk m f hm r c (by omega) hc
        · rw [hrow] at h; simp at h
        · rw [hrow] at h; simp at h
      · simp [boardLines, hd, hlen] at h
    · simp only [boardLines, hd, Bool.false_eq_true, if_false] at h
      rw [dataLines_cons, if_neg hd]
      exact ih board i g h

theorem boardLines_ok (atoi : List Char → Option Int) (lines : List (List Char)) :
    ∀ (board : Grid) (i : Nat), i + (dataLines lines).length = 9 →
      (∀ l ∈ dataLines lines,
        (splitComma l).length = 9 ∧ ∀ f ∈ splitComma l, atoi f ≠ none) →
      ∃ g, boardLines atoi board i lines = BoardRun.grid g := by
  induction lines with
  | nil =>
    intro board i hi _
    simp only [dataLines, List.filter_nil, List.length_nil, Nat.add_zero] at hi
    exact ⟨board, by simp [boardLines, hi]⟩
  | cons line rest ih =>
    intro board i hi hwf
    rw [dataLines_cons] at hi hwf
    by_cases hd : isDataLine line = true
    · rw [if_pos hd] at hi hwf
      simp only [List.length_cons] at hi
      obtain ⟨hlen, hparse⟩ := hwf line (List.mem_cons_self _ _)
      obtain ⟨b1, hrow⟩ := fillRow_ok atoi i (by omega) (splitComma line) board 0 hparse
        (by omega)
      obtain ⟨g, hg⟩ := ih b1 (i + 1) (by omega) (fun l hl => hwf l (List.mem_cons_of_mem _ hl))
      refine ⟨g, ?_⟩
      simp only [boardLines, hd, if_true, hlen, ne_eq, not_true_eq_false, if_false, hrow]
      exact hg
    · rw [if_neg hd] at hi hwf
      obtain ⟨g, hg⟩ := ih board i hi hwf
      refine ⟨g, ?_⟩
      simp only [boardLines, hd, Bool.false_eq_true, if_false]
      exact hg

/-- The read loop of `Board` panics only when a data line comes with the row
counter already at nine. -/
theorem boardLines_panic (atoi : List Char → Option Int) (lines : List (List Char)) :
    ∀ (board : Grid) (i : Nat), boardLines atoi board i lines = BoardRun.indexPanic →
      9 < i + (dataLines lines).length := by
  induction lines with
  | nil =>
    intro board i h
    by_cases hi : i = 9 <;> simp [boardLines, hi] at h
  | cons line rest ih =>
    intro board i h
    rw [dataLines_cons]
    by_cases hd : isDataLine line = true
    · rw [if_pos hd]
      simp only [List.length_cons]
      by_cases hlen : (splitComma line).length = 9
      · simp only [boardLines, hd, if_true, hlen, ne_eq, not_true_eq_false, if_false] at h
        rcases hrow : fillRow atoi i board 0 (splitComma line) with b1 | e | _
        · rw [hrow] at h
          have := ih b1 (i + 1) h
          omega
        · rw [hrow] at h; simp at h
        · have := fillRow_panic atoi i (splitComma line) board 0 (by omega) hrow
          omega
      · simp [boardLines, hd, hlen] at h
    · rw [if_neg hd]
      simp only [boardLines, hd, Bool.false_eq_true, if_false] at h
      exact ih board i h

/-- The function `Board` returns a board exactly on well-formed input. -/
theorem Board_grid_iff (atoi : List Char → Option Int) (lines : List (List Char)) :
    (∃ g, Board atoi lines = BoardRun.grid g) ↔ WellFormed atoi lines := by
  unfold Board WellFormed
  constructor
  · rintro ⟨g, h⟩
    obtain ⟨h1, h2, _, _⟩ := boardLines_grid atoi lines _ 0 g h
    exact ⟨by omega, h2⟩
  · rintro ⟨h1, h2⟩
    exact boardLines_ok atoi lines _ 0 (by omega) h2

/-- With at most nine data lines `Board` never panics: it returns a board or
stops with `log.Fatal`. -/
theorem Board_no_panic (atoi : List Char → Option Int) (lines : List (List Char))
    (h9 : (dataLines lines).length ≤ 9) : Board atoi lines ≠ BoardRun.indexPanic := by
  intro h
  have := boardLines_panic atoi lines _ 0 h
  omega

/-- Claim C15, checked at ten well-formed rows: the input has ten data lines, each
of nine integer fields, and `Board` neither returns a board nor stops with the
fatal row-count error that eight rows get: it panics on `board[9][0]`. -/
theorem Board_ten_rows_panics :
    (dataLines tenRows).length = 10 ∧
    (∀ l ∈ dataLines tenRows,
      (splitComma l).length = 9 ∧ ∀ f ∈ splitComma l, decimalAtoi f ≠ none) ∧
    Board decimalAtoi tenRows = BoardRun.indexPanic ∧
    Board decimalAtoi (List.replicate 8 zeroLine) =
      BoardRun.fatal (BoardError.rowCount 8) :=
  ⟨by decide, by decide, rfl, rfl⟩

/-- Claim C16, refuted as stated: nine rows whose first row starts with the fields
`10` and `-1` are accepted, and the returned board holds `10` and `-1`. -/
theorem Board_accepts_out_of_range :
    ∃ g, Board decimalAtoi wideRows = BoardRun.grid g ∧ g 0 0 = 10 ∧ g 0 1 = -1 :=
  ⟨_, rfl, by decide, by decide⟩

/-- Claim C16, amended: every board that `Board` returns comes from well-formed
input and holds, in row `r` and column `c`, the integer that `strconv.Atoi`
parsed from field `c` of data line `r`, whatever its value; no range check is
made. -/
theorem Board_stores_parsed_fields (atoi : List Char → Option Int)
    (lines : List (List Char)) (g : Grid) (h : Board atoi lines = BoardRun.grid g) :
    WellFormed atoi lines ∧
    (∀ (r c : Fin 9) (l f : List Char), (dataLines lines)[r.val]? = some l →
      (splitComma l)[c.val]? = some f → atoi f = some (g r c)) ∧
    (∀ r c : Fin 9, ∃ l f, (dataLines lines)[r.val]? = some l ∧
      (splitComma l)[c.val]? = some f ∧ atoi f = some (g r c)) := by
  have hwf : WellFormed atoi lines := (Board_grid_iff atoi lines).1 ⟨g, h⟩
  obtain ⟨_, _, _, h4⟩ := boardLines_grid atoi lines _ 0 g h
  have hval : ∀ (r c : Fin 9) (l f : List Char), (dataLines lines)[r.val]? = some l →
      (splitComma l)[c.val]? = some f → atoi f = some (g r c) :=
    fun r c l f hl hf => h4 r.val l hl c.val f hf r c (by omega) rfl
  refine ⟨hwf, hval, ?_⟩
  intro r c
  have hr : r.val < (dataLines lines).length := by rw [hwf.1]; exact r.isLt
  have hl : (dataLines lines)[r.val]? = some ((dataLines lines)[r.val]) :=
    List.getElem?_eq_getElem hr
  have hmem : (dataLines lines)[r.val] ∈ dataLines lines := List.getElem_mem hr
  have hc : c.val < (splitComma ((dataLines lines)[r.val])).length := by
    rw [(hwf.2 _ hmem).1]; exact c.isLt
  have hf : (splitComma ((dataLines lines)[r.val]))[c.val]? =
      some ((splitComma ((dataLines lines)[r.val]))[c.val]) := List.getElem?_eq_getElem hc
  exact ⟨_, _, hl, hf, hval r c _ _ hl hf⟩

/-- Witness of the amended C16 on `wideRows`: the field `10` is what the board
holds in its first cell. -/
theorem Board_stores_parsed_fields_witness :
    ∃ g, Board decimalAtoi wideRows = BoardRun.grid g ∧
      decimalAtoi "10".toList = some (g 0 0) :=
  ⟨_, rfl, (Board_stores_parsed_fields decimalAtoi wideRows _ rfl).2.1 0 0
    "10,-1,0,0,0,0,0,0,0".toList "10".toList rfl rfl⟩

end Sudoku
